import Mathlib

/-!
# Type-erased dynamic array (`src/1.c`)

A shallow embedding of the `Vector` operations of `src/1.c`.

* `size_t` values are natural numbers; every `size_t` operation of the source
  is taken modulo `SIZE_MOD = 2 ^ 64` (`szAdd`, `szSub`, `szMul`).
* The block behind `data` is a list of bytes; `data = none` is a pointer with
  no live storage behind it (NULL, or freed).
* `memset`, `memcpy` and `memmove` fail when they touch a byte outside the
  block; an operation that does so has outcome `Run.undefined`.
* The allocator is a parameter (`Heap`): for a request of `n` bytes it either
  refuses (`none`, the NULL return) or supplies the indeterminate contents of
  the fresh bytes.
* A request of 0 bytes is left to the C library: glibc answers `realloc(p, 0)`
  on a live block by freeing it and returning NULL (`null_on_zero`,
  `after_null`). A vector of nonzero element size makes such a request in one
  place, `shrink_to_fit` of an empty vector.
* The two loops of the source that are not bounded syntactically (`resize`,
  `VECTOR_FOREACH` with `VECTOR_STEPBACK`) take a fuel argument and have
  outcome `Run.outOfFuel` when it is used up.
-/

namespace Vec

/-! ## Machine arithmetic -/

/-- Number of values of the C type `size_t`. -/
def SIZE_MOD : Nat := 18446744073709551616

/-- Addition of two `size_t` values. -/
def szAdd (a b : Nat) : Nat := (a + b) % SIZE_MOD

/-- Subtraction of two `size_t` values. -/
def szSub (a b : Nat) : Nat := (a + (SIZE_MOD - b % SIZE_MOD)) % SIZE_MOD

/-- Multiplication of two `size_t` values. -/
def szMul (a b : Nat) : Nat := (a * b) % SIZE_MOD

/-! ## Outcomes, memory and the allocator -/

/-- Outcome of running an operation. -/
inductive Run (α : Type) where
  | done (a : α)
  | undefined
  | outOfFuel
  deriving DecidableEq, Repr

/-- The allocator: the answer to a request of `n` bytes is `none` (NULL) or
the indeterminate value of each byte of fresh storage. -/
abbrev Heap := Nat → Option (Nat → Nat)

/-- An allocator that grants every request, handing out the bytes `junk n`. -/
def grants (junk : Nat → Nat → Nat) : Heap := fun n => some (junk n)

/-- An allocator that refuses every request. -/
def refuses : Heap := fun _ => none

/-- C `realloc(old, n)`: on success a block of `n` bytes that starts with the
bytes of the old block (as many as fit); `realloc(NULL, n)` is `malloc(n)`. -/
def realloc (heap : Heap) (old : Option (List Nat)) (n : Nat) : Option (List Nat) :=
  match heap n with
  | none => none
  | some junk => some ((List.range n).map (fun j => (old.getD []).getD j (junk j)))

/-- What is behind the pointer handed to `realloc(old, n)` once the call has
returned NULL: the old block, untouched, unless the request was for 0 bytes,
which glibc answers by freeing the block. -/
def after_null (old : Option (List Nat)) (n : Nat) : Option (List Nat) :=
  if n = 0 then none else old

/-- An allocator that grants every request of nonzero size and answers a
request of 0 bytes with NULL, as glibc's `realloc` does on a live block. -/
def null_on_zero (junk : Nat → Nat → Nat) : Heap :=
  fun n => if n = 0 then none else some (junk n)

/-- C `malloc(n)`. -/
def malloc (heap : Heap) (n : Nat) : Option (List Nat) := realloc heap none n

/-- C `memset(block + off, c, n)`. -/
def memset (block : List Nat) (off c n : Nat) : Option (List Nat) :=
  if off + n ≤ block.length then
    some (block.take off ++ List.replicate n c ++ block.drop (off + n))
  else none

/-- C `memcpy(block + off, src, n)` from a source outside the block. -/
def memcpy (block : List Nat) (off : Nat) (src : List Nat) (n : Nat) : Option (List Nat) :=
  if off + n ≤ block.length ∧ n ≤ src.length then
    some (block.take off ++ src.take n ++ block.drop (off + n))
  else none

/-- C `memmove(block + dst, block + src, n)`. -/
def memmove (block : List Nat) (dst src n : Nat) : Option (List Nat) :=
  if dst + n ≤ block.length ∧ src + n ≤ block.length then
    some (block.take dst ++ (block.drop src).take n ++ block.drop (dst + n))
  else none

/-- Read of the `n` bytes at `block + off`. -/
def load (block : List Nat) (off n : Nat) : Option (List Nat) :=
  if off + n ≤ block.length then some ((block.drop off).take n) else none

/-! ## The vector -/

/-- The C struct `Vector`. -/
structure Vector where
  data : Option (List Nat)
  element_size : Nat
  size : Nat
  capacity : Nat
  deriving DecidableEq, Repr

/-- Macro `VECTOR_OFFSET(V, S)`. -/
def VECTOR_OFFSET (v : Vector) (s : Nat) : Nat := szMul v.element_size s

/-- Macro `VECTOR_ALLOC_MARGIN`. -/
def VECTOR_ALLOC_MARGIN : Nat := 0

/-- Macro `VECTOR_ALLOC_THRES`. -/
def VECTOR_ALLOC_THRES : Nat := 0

/-- Apply a memory operation to the block behind `vector->data`. -/
def store (vector : Vector) (op : List Nat → Option (List Nat)) : Run Vector :=
  match vector.data with
  | none => .undefined
  | some block =>
    match op block with
    | none => .undefined
    | some block => .done { vector with data := some block }

/-- Function `init_vector`; `vector` is the prior content of the struct. -/
def init_vector (heap : Heap) (vector : Vector) (block_size element_size : Nat) : Vector :=
  let vector := { vector with element_size := element_size }
  let vector := { vector with data := malloc heap (VECTOR_OFFSET vector block_size) }
  match vector.data with
  | none => vector
  | some _ => { vector with size := 0, capacity := block_size }

/-- Function `reserve`. Its request is for 0 bytes only when `element_size` is 0
(or the byte count wraps to 0); a NULL return is taken here as a refusal that
leaves the block as it is. -/
def reserve (heap : Heap) (vector : Vector) (new_capacity : Nat) : Vector :=
  if new_capacity > vector.capacity then
    match realloc heap vector.data (VECTOR_OFFSET vector new_capacity) with
    | none => vector
    | some new_data => { vector with data := some new_data, capacity := new_capacity }
  else vector

/-- The `while` loop of `resize`. -/
def resize_loop (heap : Heap) (new_size new_capacity : Nat) : Nat → Vector → Run Vector
  | 0, vector =>
    if szAdd new_size VECTOR_ALLOC_THRES > vector.capacity then .outOfFuel else .done vector
  | fuel + 1, vector =>
    if szAdd new_size VECTOR_ALLOC_THRES > vector.capacity then
      resize_loop heap new_size new_capacity fuel (reserve heap vector new_capacity)
    else .done vector

/-- Function `resize` (with `VECTOR_INIT_ZERO` defined, as in the source). -/
def resize (heap : Heap) (fuel : Nat) (vector : Vector) (new_size : Nat) : Run Vector :=
  let new_capacity := szAdd (szMul vector.capacity 2) VECTOR_ALLOC_MARGIN
  match resize_loop heap new_size new_capacity fuel vector with
  | .done vector =>
    let prev_end := VECTOR_OFFSET vector vector.size
    match store vector (fun block =>
        memset block prev_end 0 (VECTOR_OFFSET vector (szSub vector.capacity vector.size))) with
    | .done vector => .done { vector with size := new_size }
    | r => r
  | r => r

/-- Function `push_back`; `value` holds the bytes `value` points to. -/
def push_back (heap : Heap) (fuel : Nat) (vector : Vector) (value : List Nat) : Run Vector :=
  let prev_size := vector.size
  match resize heap fuel vector (szAdd vector.size 1) with
  | .done vector =>
    let ins_point := VECTOR_OFFSET vector prev_size
    store vector (fun block => memcpy block ins_point value vector.element_size)
  | r => r

/-- Function `clear`. -/
def clear (vector : Vector) : Vector :=
  { vector with data := none, capacity := 0, size := 0 }

/-- Function `insert`. -/
def insert (heap : Heap) (fuel : Nat) (vector : Vector) (index : Nat) (value : List Nat) :
    Run Vector :=
  match resize heap fuel vector (szAdd vector.size 1) with
  | .done vector =>
    let prev_size := vector.size
    let ins_point := VECTOR_OFFSET vector index
    let move_point := ins_point + vector.element_size
    let cpy_size := VECTOR_OFFSET vector (szSub (szSub prev_size index) 1)
    match store vector (fun block => memmove block move_point ins_point cpy_size) with
    | .done vector => store vector (fun block => memcpy block ins_point value vector.element_size)
    | r => r
  | r => r

/-- Function `erase`. -/
def erase (vector : Vector) (index : Nat) : Run Vector :=
  let prev_size := vector.size
  let move_point := VECTOR_OFFSET vector index
  let del_point := move_point + vector.element_size
  let cpy_size := VECTOR_OFFSET vector (szSub (szSub prev_size index) 1)
  match store vector (fun block => memmove block move_point del_point cpy_size) with
  | .done vector => .done { vector with size := szSub vector.size 1 }
  | r => r

/-- The element a callback is handed at `blk + pi`. -/
def element_at (vector : Vector) (pi : Nat) : Option (List Nat) :=
  match vector.data with
  | none => none
  | some block => load block pi vector.element_size

/-- The loop `VECTOR_FOREACH` of `erase_value` and `erase_if`, with the
`VECTOR_STEPBACK` after an erase; `hit` is the test made on an element. -/
def erase_loop (hit : List Nat → Bool) : Nat → Vector → Nat → Nat → Run Vector
  | 0, vector, i, _ => if i < vector.size then .outOfFuel else .done vector
  | fuel + 1, vector, i, pi =>
    if i < vector.size then
      match element_at vector pi with
      | none => .undefined
      | some e =>
        if hit e then
          match erase vector i with
          | .done vector =>
            let i := szSub i 1
            let pi := szSub pi vector.element_size
            erase_loop hit fuel vector (szAdd i 1) (szAdd pi vector.element_size)
          | r => r
        else erase_loop hit fuel vector (szAdd i 1) (szAdd pi vector.element_size)
    else .done vector

/-- Function `erase_value`: an element is erased when `!cmp(value, e)`. -/
def erase_value (fuel : Nat) (vector : Vector) (value : List Nat)
    (cmp : List Nat → List Nat → Int) : Run Vector :=
  erase_loop (fun e => cmp value e == 0) fuel vector 0 0

/-- Function `erase_if`: an element is erased when `predicate(e)` is nonzero. -/
def erase_if (fuel : Nat) (vector : Vector) (predicate : List Nat → Int) : Run Vector :=
  erase_loop (fun e => predicate e != 0) fuel vector 0 0

/-- Function `shrink_to_fit`. On a NULL return the struct is left as it is; the
storage behind `data` is what `realloc` has left there (`after_null`). -/
def shrink_to_fit (heap : Heap) (vector : Vector) : Vector :=
  match realloc heap vector.data (VECTOR_OFFSET vector vector.size) with
  | none =>
    { vector with data := after_null vector.data (VECTOR_OFFSET vector vector.size) }
  | some new_data => { vector with data := some new_data, capacity := vector.size }

/-! ## Observations -/

/-- The bytes of the block behind `data` (none when there is no storage). -/
def Vector.bytes (v : Vector) : List Nat := v.data.getD []

/-- The bytes of slot `i`. -/
def Vector.slot (v : Vector) (i : Nat) : List Nat :=
  (v.bytes.drop (v.element_size * i)).take v.element_size

/-- The logical sequence: the slots `[0, size)`. -/
def Vector.elems (v : Vector) : List (List Nat) := (List.range v.size).map v.slot

/-- The fields are `size_t` values and `data` points to a block of
`capacity` slots. -/
def Vector.Backed (v : Vector) : Prop :=
  v.data.map List.length = some (v.element_size * v.capacity) ∧
  v.element_size * v.capacity < SIZE_MOD ∧
  v.element_size < SIZE_MOD ∧ v.size < SIZE_MOD ∧ v.capacity < SIZE_MOD

instance (v : Vector) : Decidable v.Backed :=
  inferInstanceAs (Decidable (_ ∧ _ ∧ _ ∧ _ ∧ _))


/-- The doubled capacity, in slots and in bytes, is a `size_t` value. -/
def Vector.Fits (v : Vector) : Prop :=
  2 * v.capacity < SIZE_MOD ∧ v.element_size * (2 * v.capacity) < SIZE_MOD

instance (v : Vector) : Decidable v.Fits :=
  inferInstanceAs (Decidable (_ ∧ _))

/-- One-byte elements `[1], [2], [3]` in a block of four slots. -/
def sample123 : Vector :=
  { data := some [1, 2, 3, 0], element_size := 1, size := 3, capacity := 4 }

/-- One-byte elements `[7], [7], [1], [7]` in a full block of four slots. -/
def sample7717 : Vector :=
  { data := some [7, 7, 1, 7], element_size := 1, size := 4, capacity := 4 }

/-- A comparator of one-byte elements: the difference of the two bytes. -/
def byte_cmp (a b : List Nat) : Int := (a.headD 0 : Int) - (b.headD 0 : Int)

/-- An empty vector of one-byte elements with four slots. -/
def sampleEmpty4 : Vector :=
  { data := some [0, 0, 0, 0], element_size := 1, size := 0, capacity := 4 }

/-- The cases `p`, `i` and `e` of the switch in `vector_test`. -/
inductive Op where
  | p (value : List Nat)
  | i (index : Nat) (value : List Nat)
  | e (index : Nat)
  deriving DecidableEq, Repr

/-- One pass through the switch of `vector_test` for these cases. -/
def Op.run (heap : Heap) (fuel : Nat) (vector : Vector) : Op → Run Vector
  | .p value => push_back heap fuel vector value
  | .i index value => insert heap fuel vector index value
  | .e index => erase vector index

/-- The loop of `vector_test` over a list of operations. -/
def run_ops (heap : Heap) (fuel : Nat) : Vector → List Op → Run Vector
  | vector, [] => .done vector
  | vector, op :: rest =>
    match op.run heap fuel vector with
    | .done vector => run_ops heap fuel vector rest
    | r => r

/-- Number of `push_back` and `insert` calls in a list of operations. -/
def additions : List Op → Nat
  | [] => 0
  | .e _ :: rest => additions rest
  | _ :: rest => additions rest + 1

/-- Number of `erase` calls in a list of operations. -/
def removals : List Op → Nat
  | [] => 0
  | .e _ :: rest => removals rest + 1
  | _ :: rest => removals rest

/-- The operations respect the preconditions on indices when started at size `n`,
and every value holds `es` bytes. -/
def ops_ok (es : Nat) : Nat → List Op → Prop
  | _, [] => True
  | n, .p value :: rest => value.length = es ∧ ops_ok es (n + 1) rest
  | n, .i index value :: rest => index ≤ n ∧ value.length = es ∧ ops_ok es (n + 1) rest
  | n, .e index :: rest => index < n ∧ ops_ok es (n - 1) rest

instance ops_ok_decidable (es : Nat) : (n : Nat) → (ops : List Op) → Decidable (ops_ok es n ops)
  | _, [] => isTrue trivial
  | n, .p _ :: rest =>
    have := ops_ok_decidable es (n + 1) rest
    inferInstanceAs (Decidable (_ ∧ _))
  | n, .i _ _ :: rest =>
    have := ops_ok_decidable es (n + 1) rest
    inferInstanceAs (Decidable (_ ∧ _ ∧ _))
  | n, .e _ :: rest =>
    have := ops_ok_decidable es (n - 1) rest
    inferInstanceAs (Decidable (_ ∧ _))

/-- A run of the scenario kind: pushes, an insert in the middle, an erase at the front. -/
def sampleOps : List Op :=
  [.p [1], .p [2], .p [3], .i 1 [9], .e 0, .p [4], .p [5], .p [6]]

/-- The `int` stored in four bytes (little-endian, two's complement). -/
def int_value (e : List Nat) : Int :=
  let u := e.getD 0 0 + 256 * e.getD 1 0 + 65536 * e.getD 2 0 + 16777216 * e.getD 3 0
  if u < 2147483648 then (u : Int) else (u : Int) - 4294967296

/-- Function `is_even` (`%` of C truncates toward zero). -/
def is_even (value : List Nat) : Int :=
  if (int_value value).tmod 2 = 0 then 1 else 0

/-- The `int` elements 2, 99, 3, 4, 5 in a block of eight slots. -/
def sampleInts : Vector :=
  { data := some [2, 0, 0, 0, 99, 0, 0, 0, 3, 0, 0, 0, 4, 0, 0, 0, 5, 0, 0, 0,
      0, 0, 0, 0, 0, 0, 0, 0, 0, 0, 0, 0],
    element_size := 4, size := 5, capacity := 8 }

/-- One-byte elements `[1], [2], [3]` and a stale byte 9 in the fourth slot. -/
def sampleStale : Vector :=
  { data := some [1, 2, 3, 9], element_size := 1, size := 3, capacity := 4 }

/-- A struct on the stack before `init_vector`, with arbitrary contents. -/
def sampleGarbage : Vector :=
  { data := none, element_size := 0, size := 5, capacity := 7 }

/-- The value of type `int` (32 bits) that an integer wraps to. -/
def wrap_int (z : Int) : Int := (z + 2147483648) % 4294967296 - 2147483648

/-- Function `int_cmp`, the subtraction wrapping modulo `2 ^ 32`. -/
def int_cmp (v1 v2 : List Nat) : Int := wrap_int (int_value v1 - int_value v2)

/-! ## Machine arithmetic within range -/

theorem one_lt_SIZE_MOD : 1 < SIZE_MOD := by decide

theorem szAdd_of_lt {a b : Nat} (h : a + b < SIZE_MOD) : szAdd a b = a + b := by
  unfold szAdd; exact Nat.mod_eq_of_lt h

theorem szMul_of_lt {a b : Nat} (h : a * b < SIZE_MOD) : szMul a b = a * b := by
  unfold szMul; exact Nat.mod_eq_of_lt h

theorem szSub_of_le {a b : Nat} (ha : a < SIZE_MOD) (h : b ≤ a) : szSub a b = a - b := by
  unfold szSub SIZE_MOD at *; omega

theorem szAdd_szSub {a b : Nat} (ha : a < SIZE_MOD) : szAdd (szSub a b) b = a := by
  unfold szSub szAdd SIZE_MOD at *; omega

/-! ## Memory operations, byte by byte -/


theorem memset_get {block r : List Nat} {off c n : Nat} (h : memset block off c n = some r)
    (j : Nat) :
    r[j]? = if off ≤ j ∧ j < off + n then some c else block[j]? := by
  unfold memset at h
  split at h
  · cases h
    simp only [List.getElem?_append, List.getElem?_take, List.getElem?_drop,
      List.getElem?_replicate, List.length_take, List.length_append, List.length_replicate]
    split_ifs <;> first | rfl | omega | (congr 1; omega)
  · cases h

theorem memset_length {block r : List Nat} {off c n : Nat} (h : memset block off c n = some r) :
    r.length = block.length := by
  unfold memset at h
  split at h
  · cases h
    simp only [List.length_take, List.length_append, List.length_replicate, List.length_drop]
    omega
  · cases h

theorem memcpy_get {block r src : List Nat} {off n : Nat} (h : memcpy block off src n = some r)
    (j : Nat) :
    r[j]? = if off ≤ j ∧ j < off + n then src[j - off]? else block[j]? := by
  unfold memcpy at h
  split at h
  · cases h
    simp only [List.getElem?_append, List.getElem?_take, List.getElem?_drop,
      List.length_take, List.length_append]
    split_ifs <;> first | rfl | omega | (congr 1; omega)
  · cases h

theorem memcpy_length {block r src : List Nat} {off n : Nat}
    (h : memcpy block off src n = some r) : r.length = block.length := by
  unfold memcpy at h
  split at h
  · cases h
    simp only [List.length_take, List.length_append, List.length_drop]
    omega
  · cases h

theorem memmove_get {block r : List Nat} {dst src n : Nat} (h : memmove block dst src n = some r)
    (j : Nat) :
    r[j]? = if dst ≤ j ∧ j < dst + n then block[src + (j - dst)]? else block[j]? := by
  unfold memmove at h
  split at h
  · cases h
    simp only [List.getElem?_append, List.getElem?_take, List.getElem?_drop,
      List.length_take, List.length_append, List.length_drop]
    split_ifs <;> first | rfl | omega | (congr 1; omega)
  · cases h

theorem memmove_length {block r : List Nat} {dst src n : Nat}
    (h : memmove block dst src n = some r) : r.length = block.length := by
  unfold memmove at h
  split at h
  · cases h
    simp only [List.length_take, List.length_append, List.length_drop]
    omega
  · cases h

theorem realloc_get {heap : Heap} {old : Option (List Nat)} {n : Nat} {r : List Nat}
    (h : realloc heap old n = some r) (j : Nat) (hj : j < (old.getD []).length) (hn : j < n) :
    r[j]? = (old.getD [])[j]? := by
  unfold realloc at h
  split at h
  · cases h
  · cases h
    simp [List.getElem?_map, List.getElem?_range, hn, hj, List.getD_eq_getElem?_getD]

theorem realloc_length {heap : Heap} {old : Option (List Nat)} {n : Nat} {r : List Nat}
    (h : realloc heap old n = some r) : r.length = n := by
  unfold realloc at h
  split at h
  · cases h
  · cases h; simp

theorem slot_get (v : Vector) (i k : Nat) :
    (v.slot i)[k]? = if k < v.element_size then v.bytes[v.element_size * i + k]? else none := by
  unfold Vector.slot
  simp only [List.getElem?_take, List.getElem?_drop]

theorem slot_eq_of_bytes {v w : Vector} (hes : w.element_size = v.element_size) (i j : Nat)
    (h : ∀ k, k < v.element_size →
      w.bytes[v.element_size * i + k]? = v.bytes[v.element_size * j + k]?) :
    w.slot i = v.slot j := by
  apply List.ext_getElem?
  intro k
  rw [slot_get, slot_get, hes]
  split_ifs with hk
  · exact h k hk
  · rfl


theorem Backed_block {v : Vector} (hb : v.Backed) :
    ∃ block, v.data = some block ∧ block.length = v.element_size * v.capacity := by
  obtain ⟨h, -⟩ := hb
  cases hd : v.data with
  | none => rw [hd] at h; cases h
  | some block => rw [hd] at h; exact ⟨block, rfl, by simpa using h⟩

theorem elems_get (v : Vector) (m : Nat) :
    v.elems[m]? = if m < v.size then some (v.slot m) else none := by
  unfold Vector.elems
  simp only [List.getElem?_map, List.getElem?_range]
  split_ifs with h
  · simp [List.getElem?_range, h]
  · simp only [Option.map_eq_none', List.getElem?_eq_none_iff, List.length_range]
    omega

theorem elems_length (v : Vector) : v.elems.length = v.size := by
  simp [Vector.elems]

/-- Offsets of slots below the capacity are not reduced by the modulus. -/
theorem offset_eq {v : Vector} (hb : v.Backed) {s : Nat} (hs : s ≤ v.capacity) :
    VECTOR_OFFSET v s = v.element_size * s := by
  unfold VECTOR_OFFSET
  apply szMul_of_lt
  have := Nat.mul_le_mul_left v.element_size hs
  have := hb.2.1
  omega

theorem store_done {v : Vector} {block r : List Nat} {op : List Nat → Option (List Nat)}
    (hd : v.data = some block) (hr : op block = some r) :
    store v op = .done { v with data := some r } := by
  unfold store
  rw [hd]
  simp only [hr]

/-- What `erase` does to a well-formed vector. -/
theorem erase_done {v : Vector} (hb : v.Backed) (hsz : v.size ≤ v.capacity) {index : Nat}
    (hi : index < v.size) :
    ∃ w, erase v index = .done w ∧ w.Backed ∧ w.size = v.size - 1 ∧
      w.capacity = v.capacity ∧ w.element_size = v.element_size ∧
      (∀ j, w.bytes[j]? =
        if v.element_size * index ≤ j ∧ j < v.element_size * (v.size - 1) then
          v.bytes[j + v.element_size]? else v.bytes[j]?) := by
  obtain ⟨block, hd, hlen⟩ := Backed_block hb
  have hb' := hb
  obtain ⟨-, h1, h2, h3, h4⟩ := hb'
  have e1 : szSub (szSub v.size index) 1 = v.size - index - 1 := by
    rw [szSub_of_le h3 (by omega), szSub_of_le (by omega) (by omega)]
  have e2 : VECTOR_OFFSET v index = v.element_size * index := offset_eq hb (by omega)
  have e3 : VECTOR_OFFSET v (v.size - index - 1) = v.element_size * (v.size - index - 1) :=
    offset_eq hb (by omega)
  have e4 : szSub v.size 1 = v.size - 1 := szSub_of_le h3 (by omega)
  have a1 : v.element_size * (v.size - 1) =
      v.element_size * index + v.element_size * (v.size - index - 1) := by
    rw [← Nat.mul_add, show index + (v.size - index - 1) = v.size - 1 from by omega]
  have a2 : v.element_size * v.size = v.element_size * (v.size - 1) + v.element_size := by
    rw [← Nat.mul_succ, show (v.size - 1).succ = v.size from by omega]
  have a3 := Nat.mul_le_mul_left v.element_size hsz
  have hmv : ∃ r, memmove block (v.element_size * index) (v.element_size * index + v.element_size)
      (v.element_size * (v.size - index - 1)) = some r := by
    unfold memmove
    rw [if_pos (by constructor <;> omega)]
    exact ⟨_, rfl⟩
  obtain ⟨r, hr⟩ := hmv
  refine ⟨{ v with data := some r, size := v.size - 1 }, ?_, ?_, rfl, rfl, rfl, ?_⟩
  · unfold erase
    simp only [e1, e2, e3]
    rw [store_done hd hr]
    simp only [e4]
  · refine ⟨?_, h1, h2, by show v.size - 1 < SIZE_MOD; omega, h4⟩
    show Option.map List.length (some r) = _
    simp [memmove_length hr, hlen]
  · intro j
    show r[j]? = _
    rw [memmove_get hr j]
    simp only [Vector.bytes, hd, Option.getD_some]
    by_cases hc : v.element_size * index ≤ j ∧ j < v.element_size * (v.size - 1)
    · rw [if_pos hc, if_pos (by omega),
        show v.element_size * index + v.element_size + (j - v.element_size * index) =
          j + v.element_size from by omega]
    · rw [if_neg hc, if_neg (by omega)]


theorem take_append_drop_succ_get {α : Type} (l : List α) (i m : Nat) (hi : i < l.length) :
    (l.take i ++ l.drop (i + 1))[m]? = if m < i then l[m]? else l[m + 1]? := by
  simp only [List.getElem?_append, List.getElem?_take, List.getElem?_drop, List.length_take]
  by_cases h : m < i
  · rw [if_pos (by omega), if_pos h, if_pos h]
  · rw [if_neg (by omega), if_neg h,
      show i + 1 + (m - min i l.length) = m + 1 from by omega]

/-- The logical sequence after `erase`. -/
theorem erase_elems {v : Vector} (hb : v.Backed) (hsz : v.size ≤ v.capacity) {index : Nat}
    (hi : index < v.size) :
    ∃ w, erase v index = .done w ∧ w.Backed ∧ w.size = v.size - 1 ∧
      w.capacity = v.capacity ∧ w.element_size = v.element_size ∧
      w.elems = v.elems.take index ++ v.elems.drop (index + 1) := by
  obtain ⟨w, hw, hwb, hs, hc, he, hby⟩ := erase_done hb hsz hi
  refine ⟨w, hw, hwb, hs, hc, he, ?_⟩
  apply List.ext_getElem?
  intro m
  rw [take_append_drop_succ_get _ _ _ (by rw [elems_length]; exact hi)]
  simp only [elems_get, hs]
  have a2 : v.element_size * v.size = v.element_size * (v.size - 1) + v.element_size := by
    rw [← Nat.mul_succ, show (v.size - 1).succ = v.size from by omega]
  by_cases h1 : m < v.size - 1
  · have hm1 := Nat.mul_le_mul_left v.element_size (show m + 1 ≤ v.size - 1 by omega)
    rw [Nat.mul_succ] at hm1
    by_cases h2 : m < index
    · have hm2 := Nat.mul_le_mul_left v.element_size (show m + 1 ≤ index by omega)
      rw [Nat.mul_succ] at hm2
      rw [if_pos h1, if_pos h2, if_pos (by omega)]
      congr 1
      apply slot_eq_of_bytes he
      intro k hk
      rw [hby, if_neg (by omega)]
    · have hm2 := Nat.mul_le_mul_left v.element_size (show index ≤ m by omega)
      rw [if_pos h1, if_neg h2, if_pos (by omega)]
      congr 1
      apply slot_eq_of_bytes he
      intro k hk
      rw [hby, if_pos (by omega), Nat.mul_succ]
      congr 1
      omega
  · rw [if_neg h1]
    by_cases h2 : m < index
    · omega
    · rw [if_neg h2, if_neg (by omega)]


/-! ## `reserve` and the growth loop -/

theorem thres_eq {n : Nat} (h : n < SIZE_MOD) : szAdd n VECTOR_ALLOC_THRES = n := by
  unfold VECTOR_ALLOC_THRES
  exact szAdd_of_lt h

theorem doubled_eq {c : Nat} (h : 2 * c < SIZE_MOD) :
    szAdd (szMul c 2) VECTOR_ALLOC_MARGIN = 2 * c := by
  unfold VECTOR_ALLOC_MARGIN
  rw [szMul_of_lt (by omega), szAdd_of_lt (by omega)]
  omega

theorem reserve_size (heap : Heap) (v : Vector) (nc : Nat) : (reserve heap v nc).size = v.size := by
  unfold reserve
  split
  · split <;> rfl
  · rfl

theorem reserve_element_size (heap : Heap) (v : Vector) (nc : Nat) :
    (reserve heap v nc).element_size = v.element_size := by
  unfold reserve
  split
  · split <;> rfl
  · rfl

theorem reserve_capacity (heap : Heap) (v : Vector) (nc : Nat) :
    (reserve heap v nc).capacity = v.capacity ∨
      (v.capacity < nc ∧ (reserve heap v nc).capacity = nc) := by
  unfold reserve
  split
  · split
    · exact Or.inl rfl
    · exact Or.inr ⟨by assumption, rfl⟩
  · exact Or.inl rfl

theorem reserve_of_le {heap : Heap} {v : Vector} {nc : Nat} (h : nc ≤ v.capacity) :
    reserve heap v nc = v := by
  unfold reserve
  rw [if_neg (by omega)]

theorem reserve_of_refused {heap : Heap} {v : Vector} {nc : Nat}
    (h : heap (VECTOR_OFFSET v nc) = none) : reserve heap v nc = v := by
  unfold reserve realloc
  split
  · simp only [h]
  · rfl

theorem reserve_idem (heap : Heap) (v : Vector) (nc : Nat) :
    reserve heap (reserve heap v nc) nc = reserve heap v nc := by
  rcases reserve_capacity heap v nc with h | ⟨-, h⟩
  · by_cases hc : nc > v.capacity
    · -- the request was refused
      have hv : reserve heap v nc = v := by
        unfold reserve at h ⊢
        rw [if_pos hc] at h ⊢
        split
        · rfl
        · rename_i hr
          rw [hr] at h
          simp only at h
          omega
      rw [hv, hv]
    · rw [reserve_of_le (show nc ≤ v.capacity by omega), reserve_of_le (show nc ≤ v.capacity by omega)]
  · exact reserve_of_le (by omega)

theorem resize_loop_exit {heap : Heap} {ns nc : Nat} {v : Vector}
    (h : ¬ szAdd ns VECTOR_ALLOC_THRES > v.capacity) (fuel : Nat) :
    resize_loop heap ns nc fuel v = .done v := by
  cases fuel <;> simp only [resize_loop, if_neg h]

theorem resize_loop_stuck {heap : Heap} {ns nc : Nat} {v : Vector}
    (hfix : reserve heap v nc = v) (h : szAdd ns VECTOR_ALLOC_THRES > v.capacity) (fuel : Nat) :
    resize_loop heap ns nc fuel v = .outOfFuel := by
  induction fuel with
  | zero => simp only [resize_loop, if_pos h]
  | succ n ih => simp only [resize_loop, if_pos h, hfix, ih]

theorem resize_loop_step {heap : Heap} {ns nc : Nat} {v : Vector}
    (h : szAdd ns VECTOR_ALLOC_THRES > v.capacity) (fuel : Nat) :
    resize_loop heap ns nc (fuel + 1) v =
      if szAdd ns VECTOR_ALLOC_THRES > (reserve heap v nc).capacity then .outOfFuel
      else .done (reserve heap v nc) := by
  simp only [resize_loop, if_pos h]
  split_ifs with h2
  · exact resize_loop_stuck (reserve_idem heap v nc) h2 fuel
  · exact resize_loop_exit h2 fuel

/-- When the loop of `resize` exits, it has called `reserve` at most once with effect. -/
theorem resize_loop_done {heap : Heap} {ns nc fuel : Nat} {v u : Vector}
    (h : resize_loop heap ns nc fuel v = .done u) :
    (¬ szAdd ns VECTOR_ALLOC_THRES > v.capacity ∧ u = v) ∨
      (szAdd ns VECTOR_ALLOC_THRES > v.capacity ∧ u = reserve heap v nc ∧
        ¬ szAdd ns VECTOR_ALLOC_THRES > u.capacity) := by
  by_cases hc : szAdd ns VECTOR_ALLOC_THRES > v.capacity
  · cases fuel with
    | zero => simp only [resize_loop, if_pos hc] at h; cases h
    | succ n =>
      rw [resize_loop_step hc] at h
      split_ifs at h with h2
      cases h
      exact Or.inr ⟨hc, rfl, h2⟩
  · rw [resize_loop_exit hc] at h
    cases h
    exact Or.inl ⟨hc, rfl⟩


theorem bytes_of_data {v : Vector} {block : List Nat} (hd : v.data = some block) :
    v.bytes = block := by
  unfold Vector.bytes
  rw [hd]
  rfl

/-- A granted `reserve` beyond the capacity, on a well-formed vector. -/
theorem reserve_grow {heap : Heap} {v : Vector} {nc : Nat} (hb : v.Backed)
    (hnc : v.capacity < nc) (hfit : nc < SIZE_MOD ∧ v.element_size * nc < SIZE_MOD)
    (hg : heap (v.element_size * nc) ≠ none) :
    (reserve heap v nc).Backed ∧ (reserve heap v nc).capacity = nc ∧
      ∀ j, j < v.element_size * v.capacity → (reserve heap v nc).bytes[j]? = v.bytes[j]? := by
  obtain ⟨block, hd, hlen⟩ := Backed_block hb
  obtain ⟨-, h1, h2, h3, h4⟩ := hb
  have e1 : VECTOR_OFFSET v nc = v.element_size * nc := szMul_of_lt hfit.2
  have hle := Nat.mul_le_mul_left v.element_size (Nat.le_of_lt hnc)
  cases hr : realloc heap v.data (v.element_size * nc) with
  | none =>
    unfold realloc at hr
    split at hr
    · rename_i hh; exact absurd hh hg
    · cases hr
  | some r =>
    have hv : reserve heap v nc = { v with data := some r, capacity := nc } := by
      unfold reserve
      rw [if_pos hnc, e1, hr]
    rw [hv]
    refine ⟨⟨?_, hfit.2, h2, h3, hfit.1⟩, rfl, ?_⟩
    · show Option.map List.length (some r) = _
      simp [realloc_length hr]
    · intro j hj
      show r[j]? = _
      rw [realloc_get hr j (by rw [hd]; simp only [Option.getD_some]; omega) (by omega),
        bytes_of_data hd, hd]
      rfl

/-- The `memset` of `resize` on a well-formed vector. -/
theorem zero_tail_done {u : Vector} (hb : u.Backed) (hsz : u.size ≤ u.capacity) :
    ∃ r, store u (fun block => memset block (VECTOR_OFFSET u u.size) 0
        (VECTOR_OFFSET u (szSub u.capacity u.size))) = .done { u with data := some r } ∧
      r.length = u.element_size * u.capacity ∧
      ∀ j, r[j]? = if u.element_size * u.size ≤ j ∧ j < u.element_size * u.capacity
        then some 0 else u.bytes[j]? := by
  obtain ⟨block, hd, hlen⟩ := Backed_block hb
  have e1 : VECTOR_OFFSET u u.size = u.element_size * u.size := offset_eq hb hsz
  have e2 : szSub u.capacity u.size = u.capacity - u.size := szSub_of_le hb.2.2.2.2 hsz
  have e3 : VECTOR_OFFSET u (u.capacity - u.size) = u.element_size * (u.capacity - u.size) :=
    offset_eq hb (by omega)
  have a1 : u.element_size * u.capacity =
      u.element_size * u.size + u.element_size * (u.capacity - u.size) := by
    rw [← Nat.mul_add, show u.size + (u.capacity - u.size) = u.capacity from by omega]
  have hms : ∃ r, memset block (u.element_size * u.size) 0
      (u.element_size * (u.capacity - u.size)) = some r := by
    unfold memset
    rw [if_pos (by omega)]
    exact ⟨_, rfl⟩
  obtain ⟨r, hr⟩ := hms
  refine ⟨r, ?_, ?_, ?_⟩
  · rw [e1, e2, e3]
    exact store_done hd hr
  · rw [memset_length hr, hlen]
  · intro j
    rw [memset_get hr j, bytes_of_data hd, ← a1]


/-- The vector with which the loop of `resize` exits, for a well-formed vector whose
doubled capacity is representable. -/
theorem resize_loop_result {heap : Heap} {fuel ns : Nat} {v u : Vector} (hb : v.Backed)
    (hfit : v.Fits) (hns : ns < SIZE_MOD)
    (h : resize_loop heap ns (szAdd (szMul v.capacity 2) VECTOR_ALLOC_MARGIN) fuel v = .done u) :
    u.Backed ∧ u.size = v.size ∧ u.element_size = v.element_size ∧ ns ≤ u.capacity ∧
      u.capacity = (if ns ≤ v.capacity then v.capacity else 2 * v.capacity) ∧
      ∀ j, j < v.element_size * v.capacity → u.bytes[j]? = v.bytes[j]? := by
  rw [doubled_eq hfit.1] at h
  rcases resize_loop_done h with ⟨hc, rfl⟩ | ⟨hc, rfl, hx⟩
  · rw [thres_eq hns] at hc
    exact ⟨hb, rfl, rfl, by omega, by rw [if_pos (by omega)], fun _ _ => rfl⟩
  · rw [thres_eq hns] at hc hx
    have e1 : VECTOR_OFFSET v (2 * v.capacity) = v.element_size * (2 * v.capacity) :=
      szMul_of_lt hfit.2
    by_cases hg : heap (v.element_size * (2 * v.capacity)) = none
    · rw [reserve_of_refused (by rw [e1]; exact hg)] at hx
      omega
    · by_cases hz : v.capacity < 2 * v.capacity
      · obtain ⟨hub, hcap, hby⟩ := reserve_grow hb hz hfit hg
        exact ⟨hub, reserve_size _ _ _, reserve_element_size _ _ _, by omega,
          by rw [if_neg (by omega)]; exact hcap, hby⟩
      · rw [reserve_of_le (by omega)] at hx
        omega

/-- What `resize` has done to a well-formed vector when it completes. -/
theorem resize_done {heap : Heap} {fuel ns : Nat} {v w : Vector} (hb : v.Backed)
    (hsz : v.size ≤ v.capacity) (hfit : v.Fits) (hns : ns < SIZE_MOD)
    (h : resize heap fuel v ns = .done w) :
    w.Backed ∧ w.size = ns ∧ w.element_size = v.element_size ∧ ns ≤ w.capacity ∧
      w.capacity = (if ns ≤ v.capacity then v.capacity else 2 * v.capacity) ∧
      (∀ j, j < v.element_size * v.size → w.bytes[j]? = v.bytes[j]?) ∧
      (∀ j, v.element_size * v.size ≤ j → j < v.element_size * w.capacity →
        w.bytes[j]? = some 0) := by
  unfold resize at h
  simp only at h
  cases hl : resize_loop heap ns (szAdd (szMul v.capacity 2) VECTOR_ALLOC_MARGIN) fuel v with
  | undefined => rw [hl] at h; cases h
  | outOfFuel => rw [hl] at h; cases h
  | done u =>
    rw [hl] at h
    obtain ⟨hub, hus, hue, hle, hcap, hby⟩ := resize_loop_result hb hfit hns hl
    have hcge : v.capacity ≤ u.capacity := by rw [hcap]; split_ifs <;> omega
    obtain ⟨r, hst, hrl, hrg⟩ := zero_tail_done hub (by omega)
    simp only [hst] at h
    cases h
    have a1 := Nat.mul_le_mul_left v.element_size hsz
    refine ⟨⟨?_, hub.2.1, hub.2.2.1, hns, hub.2.2.2.2⟩, rfl, hue, hle, hcap, ?_, ?_⟩
    · show Option.map List.length (some r) = _
      simp [hrl]
    · intro j hj
      show r[j]? = _
      rw [hrg, hue, hus, if_neg (by omega)]
      exact hby j (by omega)
    · intro j hj1 hj2
      show r[j]? = _
      have hj3 : j < v.element_size * u.capacity := hj2
      rw [hrg, hue, hus, if_pos ⟨hj1, hj3⟩]

/-- The call `resize` completes on a well-formed vector when the target is within twice the
capacity and the allocator grants the doubled block (if it is asked for). -/
theorem resize_completes {heap : Heap} {fuel ns : Nat} {v : Vector} (hb : v.Backed)
    (hsz : v.size ≤ v.capacity) (hfit : v.Fits) (hns : ns ≤ 2 * v.capacity)
    (hg : ns ≤ v.capacity ∨
      (1 ≤ fuel ∧ heap (v.element_size * (2 * v.capacity)) ≠ none)) :
    ∃ w, resize heap fuel v ns = .done w := by
  have hns' : ns < SIZE_MOD := by have := hfit.1; omega
  have hloop : ∃ u, resize_loop heap ns (szAdd (szMul v.capacity 2) VECTOR_ALLOC_MARGIN)
      fuel v = .done u := by
    by_cases hc : ns ≤ v.capacity
    · exact ⟨v, resize_loop_exit (by rw [thres_eq hns']; omega) fuel⟩
    · rcases hg with hg | ⟨hf, hg⟩
      · omega
      · obtain ⟨n, rfl⟩ : ∃ n, fuel = n + 1 := ⟨fuel - 1, by omega⟩
        rw [resize_loop_step (by rw [thres_eq hns']; omega), doubled_eq hfit.1]
        obtain ⟨-, hcap, -⟩ := reserve_grow hb (show v.capacity < 2 * v.capacity by omega)
          hfit hg
        rw [if_neg (by rw [thres_eq hns', hcap]; omega)]
        exact ⟨_, rfl⟩
  obtain ⟨u, hl⟩ := hloop
  obtain ⟨hub, hus, hue, hle, hcap, hby⟩ := resize_loop_result hb hfit hns' hl
  have hcge : v.capacity ≤ u.capacity := by rw [hcap]; split_ifs <;> omega
  obtain ⟨r, hst, -, -⟩ := zero_tail_done hub (by omega)
  refine ⟨{ u with data := some r, size := ns }, ?_⟩
  unfold resize
  simp only [hl, hst]


theorem take_cons_drop_get {α : Type} (l : List α) (x : α) (i m : Nat) (hi : i ≤ l.length) :
    (l.take i ++ x :: l.drop i)[m]? =
      if m < i then l[m]? else if m = i then some x else l[m - 1]? := by
  simp only [List.getElem?_append, List.getElem?_take, List.length_take]
  by_cases h : m < i
  · rw [if_pos (by omega), if_pos h, if_pos h]
  · rw [if_neg (by omega), if_neg h, show min i l.length = i from by omega]
    by_cases h2 : m = i
    · subst h2
      simp
    · rw [if_neg h2]
      obtain ⟨d, hd⟩ : ∃ d, m - i = d + 1 := ⟨m - i - 1, by omega⟩
      rw [hd, List.getElem?_cons_succ, List.getElem?_drop,
        show i + d = m - 1 from by omega]

/-- What `insert` does to a well-formed vector, once its `resize` has completed. -/
theorem insert_of_resize {heap : Heap} {fuel index : Nat} {v w : Vector} {x : List Nat}
    (hb : v.Backed) (hsz : v.size ≤ v.capacity) (hfit : v.Fits)
    (hi : index ≤ v.size) (hx : x.length = v.element_size)
    (hw : resize heap fuel v (szAdd v.size 1) = .done w) :
    ∃ w2, insert heap fuel v index x = .done w2 ∧ w2.Backed ∧ w2.size = v.size + 1 ∧
      w2.element_size = v.element_size ∧ w2.capacity = w.capacity ∧
      w2.elems = v.elems.take index ++ x :: v.elems.drop index := by
  have hlt : v.size + 1 < SIZE_MOD := by
    have := hfit.1
    have := one_lt_SIZE_MOD
    omega
  have hs1 : szAdd v.size 1 = v.size + 1 := szAdd_of_lt hlt
  rw [hs1] at hw
  obtain ⟨hwb, hws, hwe, hwle, hwc, hlo, hhi⟩ := resize_done hb hsz hfit hlt hw
  obtain ⟨block, hd, hlen⟩ := Backed_block hwb
  have e1 : szSub (szSub w.size index) 1 = v.size - index := by
    have s1 : szSub (v.size + 1) index = v.size + 1 - index :=
      szSub_of_le hlt (by omega)
    have s2 : szSub (v.size + 1 - index) 1 = v.size + 1 - index - 1 :=
      szSub_of_le (by omega) (by omega)
    rw [hws, s1, s2]
    omega
  have e2 : VECTOR_OFFSET w index = v.element_size * index := by
    rw [offset_eq hwb (by omega), hwe]
  have e3 : VECTOR_OFFSET w (v.size - index) = v.element_size * (v.size - index) := by
    rw [offset_eq hwb (by omega), hwe]
  have a1 : v.element_size * (v.size + 1) =
      v.element_size * index + v.element_size + v.element_size * (v.size - index) := by
    rw [show v.size + 1 = index + 1 + (v.size - index) from by omega, Nat.mul_add, Nat.mul_add,
      Nat.mul_one]
  have a4 : v.element_size * (v.size + 1) = v.element_size * v.size + v.element_size :=
    Nat.mul_succ _ _
  have a2 := Nat.mul_le_mul_left v.element_size hwle
  have a3 := Nat.mul_le_mul_left v.element_size hi
  rw [hwe] at hlen
  have hmv : ∃ r, memmove block (v.element_size * index + v.element_size)
      (v.element_size * index) (v.element_size * (v.size - index)) = some r := by
    unfold memmove
    rw [if_pos (by constructor <;> omega)]
    exact ⟨_, rfl⟩
  obtain ⟨r, hr⟩ := hmv
  have hcp : ∃ r2, memcpy r (v.element_size * index) x v.element_size = some r2 := by
    unfold memcpy
    rw [if_pos (by rw [memmove_length hr]; constructor <;> omega)]
    exact ⟨_, rfl⟩
  obtain ⟨r2, hr2⟩ := hcp
  obtain ⟨w2, hw2⟩ : ∃ w2 : Vector, w2 = { w with data := some r2 } := ⟨_, rfl⟩
  have hw2s : w2.size = v.size + 1 := by rw [hw2]; exact hws
  have hw2e : w2.element_size = v.element_size := by rw [hw2]; exact hwe
  have hb2 : w2.bytes = r2 := by rw [hw2]; rfl
  have hw2c : w2.capacity = w.capacity := by rw [hw2]
  refine ⟨w2, ?_, ?_, hw2s, hw2e, hw2c, ?_⟩
  · rw [hw2]
    unfold insert
    simp only [hs1, hw, e1, e2, e3]
    rw [hwe, store_done hd hr]
    simp only
    rw [hwe, store_done rfl hr2]
  · rw [hw2]
    refine ⟨?_, hwb.2.1, hwb.2.2.1, hwb.2.2.2.1, hwb.2.2.2.2⟩
    show Option.map List.length (some r2) = _
    simp [memcpy_length hr2, memmove_length hr, hlen, hwe]
  · apply List.ext_getElem?
    intro m
    rw [take_cons_drop_get _ _ _ _ (by rw [elems_length]; exact hi)]
    simp only [elems_get]
    rw [hw2s]
    have key : ∀ j, r2[j]? =
        if v.element_size * index ≤ j ∧ j < v.element_size * index + v.element_size then
          x[j - v.element_size * index]?
        else if v.element_size * index + v.element_size ≤ j ∧
            j < v.element_size * (v.size + 1) then w.bytes[j - v.element_size]?
        else w.bytes[j]? := by
      intro j
      rw [memcpy_get hr2 j, memmove_get hr j, bytes_of_data hd]
      by_cases c1 : v.element_size * index ≤ j ∧ j < v.element_size * index + v.element_size
      · rw [if_pos c1, if_pos c1]
      · rw [if_neg c1, if_neg c1]
        by_cases c2 : v.element_size * index + v.element_size ≤ j ∧
            j < v.element_size * (v.size + 1)
        · rw [if_pos c2, if_pos (by omega),
            show v.element_size * index + (j - (v.element_size * index + v.element_size)) =
              j - v.element_size from by omega]
        · rw [if_neg c2, if_neg (by omega)]
    by_cases h1 : m < index
    · have hm := Nat.mul_le_mul_left v.element_size (show m + 1 ≤ index by omega)
      rw [Nat.mul_succ] at hm
      rw [if_pos (by omega), if_pos h1, if_pos (by omega)]
      refine congrArg some ?_
      apply slot_eq_of_bytes hw2e
      intro k hk
      rw [hb2, key, if_neg (by omega), if_neg (by omega)]
      exact hlo _ (by omega)
    · rw [if_neg h1]
      by_cases h2 : m = index
      · subst h2
        rw [if_pos (by omega), if_pos rfl]
        refine congrArg some ?_
        apply List.ext_getElem?
        intro k
        rw [slot_get, hw2e, hb2]
        by_cases hk : k < v.element_size
        · rw [if_pos hk, key, if_pos (by omega),
            show v.element_size * m + k - v.element_size * m = k from by omega]
        · rw [if_neg hk]
          symm
          rw [List.getElem?_eq_none_iff]
          omega
      · rw [if_neg h2]
        by_cases h3 : m < v.size + 1
        · have hm := Nat.mul_le_mul_left v.element_size (show index + 1 ≤ m by omega)
          rw [Nat.mul_succ] at hm
          have hm2 := Nat.mul_le_mul_left v.element_size (show m + 1 ≤ v.size + 1 by omega)
          rw [Nat.mul_succ] at hm2
          have hm3 : v.element_size * m = v.element_size * (m - 1) + v.element_size := by
            rw [← Nat.mul_succ, show (m - 1).succ = m from by omega]
          rw [if_pos h3, if_pos (by omega)]
          refine congrArg some ?_
          apply slot_eq_of_bytes hw2e
          intro k hk
          rw [hb2, key, if_neg (by omega), if_pos (by omega),
            show v.element_size * m + k - v.element_size = v.element_size * (m - 1) + k
              from by omega]
          exact hlo _ (by omega)
        · rw [if_neg h3, if_neg (by omega)]


theorem append_singleton_get {α : Type} (l : List α) (x : α) (m : Nat) :
    (l ++ [x])[m]? = if m < l.length then l[m]? else if m = l.length then some x else none := by
  simp only [List.getElem?_append]
  by_cases h : m < l.length
  · rw [if_pos h, if_pos h]
  · rw [if_neg h, if_neg h]
    by_cases h2 : m = l.length
    · rw [if_pos h2, h2]
      simp
    · rw [if_neg h2]
      obtain ⟨d, hd⟩ : ∃ d, m - l.length = d + 1 := ⟨m - l.length - 1, by omega⟩
      rw [hd]
      rfl

/-- What `push_back` does to a well-formed vector, once its `resize` has completed. -/
theorem push_back_of_resize {heap : Heap} {fuel : Nat} {v w : Vector} {x : List Nat}
    (hb : v.Backed) (hsz : v.size ≤ v.capacity) (hfit : v.Fits)
    (hx : x.length = v.element_size)
    (hw : resize heap fuel v (szAdd v.size 1) = .done w) :
    ∃ w2, push_back heap fuel v x = .done w2 ∧ w2.Backed ∧ w2.size = v.size + 1 ∧
      w2.element_size = v.element_size ∧ w2.capacity = w.capacity ∧
      w2.elems = v.elems ++ [x] := by
  have hlt : v.size + 1 < SIZE_MOD := by
    have := hfit.1
    have := one_lt_SIZE_MOD
    omega
  have hs1 : szAdd v.size 1 = v.size + 1 := szAdd_of_lt hlt
  rw [hs1] at hw
  obtain ⟨hwb, hws, hwe, hwle, hwc, hlo, hhi⟩ := resize_done hb hsz hfit hlt hw
  obtain ⟨block, hd, hlen⟩ := Backed_block hwb
  have e2 : VECTOR_OFFSET w v.size = v.element_size * v.size := by
    rw [offset_eq hwb (by omega), hwe]
  have a4 : v.element_size * (v.size + 1) = v.element_size * v.size + v.element_size :=
    Nat.mul_succ _ _
  have a2 := Nat.mul_le_mul_left v.element_size hwle
  rw [hwe] at hlen
  have hcp : ∃ r2, memcpy block (v.element_size * v.size) x v.element_size = some r2 := by
    unfold memcpy
    rw [if_pos (by constructor <;> omega)]
    exact ⟨_, rfl⟩
  obtain ⟨r2, hr2⟩ := hcp
  obtain ⟨w2, hw2⟩ : ∃ w2 : Vector, w2 = { w with data := some r2 } := ⟨_, rfl⟩
  have hw2s : w2.size = v.size + 1 := by rw [hw2]; exact hws
  have hw2e : w2.element_size = v.element_size := by rw [hw2]; exact hwe
  have hb2 : w2.bytes = r2 := by rw [hw2]; rfl
  have hw2c : w2.capacity = w.capacity := by rw [hw2]
  refine ⟨w2, ?_, ?_, hw2s, hw2e, hw2c, ?_⟩
  · rw [hw2]
    unfold push_back
    simp only [hs1, hw, e2]
    rw [hwe, store_done hd hr2, hwe]
  · rw [hw2]
    refine ⟨?_, hwb.2.1, hwb.2.2.1, hwb.2.2.2.1, hwb.2.2.2.2⟩
    show Option.map List.length (some r2) = _
    simp [memcpy_length hr2, hlen, hwe]
  · apply List.ext_getElem?
    intro m
    rw [append_singleton_get, elems_length]
    simp only [elems_get]
    rw [hw2s]
    by_cases h1 : m < v.size
    · have hm := Nat.mul_le_mul_left v.element_size (show m + 1 ≤ v.size by omega)
      rw [Nat.mul_succ] at hm
      rw [if_pos (by omega), if_pos h1, if_pos h1]
      refine congrArg some ?_
      apply slot_eq_of_bytes hw2e
      intro k hk
      rw [hb2, memcpy_get hr2, if_neg (by omega), ← bytes_of_data hd]
      exact hlo _ (by omega)
    · rw [if_neg h1]
      by_cases h2 : m = v.size
      · subst h2
        rw [if_pos (by omega), if_pos rfl]
        refine congrArg some ?_
        apply List.ext_getElem?
        intro k
        rw [slot_get, hw2e, hb2]
        by_cases hk : k < v.element_size
        · rw [if_pos hk, memcpy_get hr2, if_pos (by omega),
            show v.element_size * v.size + k - v.element_size * v.size = k from by omega]
        · rw [if_neg hk]
          symm
          rw [List.getElem?_eq_none_iff]
          omega
      · rw [if_neg h2, if_neg (by omega)]


theorem element_at_slot {v : Vector} (hb : v.Backed) {i : Nat} (hi : i < v.capacity) :
    element_at v (v.element_size * i) = some (v.slot i) := by
  obtain ⟨block, hd, hlen⟩ := Backed_block hb
  have h := Nat.mul_le_mul_left v.element_size (show i + 1 ≤ v.capacity from hi)
  rw [Nat.mul_succ] at h
  unfold element_at load
  simp only [hd]
  rw [if_pos (by omega)]
  unfold Vector.slot
  rw [bytes_of_data hd]

theorem elems_getElem {v : Vector} {i : Nat} (hi : i < v.elems.length) :
    v.elems[i] = v.slot i := by
  have h := elems_get v i
  rw [elems_length] at hi
  rw [if_pos hi, List.getElem?_eq_getElem (by rw [elems_length]; exact hi)] at h
  exact Option.some.inj h

theorem take_take_append_drop {α : Type} (l : List α) (i : Nat) (hi : i < l.length) :
    (l.take i ++ l.drop (i + 1)).take i = l.take i ∧
      (l.take i ++ l.drop (i + 1)).drop i = l.drop (i + 1) := by
  have hlen : (l.take i).length = i := by rw [List.length_take]; omega
  constructor
  · rw [List.take_append_of_le_length (by omega), List.take_of_length_le (by omega)]
  · rw [List.drop_append_of_le_length (by omega), List.drop_of_length_le (by omega)]
    rfl

/-- The loop of `erase_value` and `erase_if`, from cursor `i` on, on a well-formed vector. -/
theorem erase_loop_spec (hit : List Nat → Bool) :
    ∀ (fuel : Nat) (v : Vector) (i : Nat), v.Backed → v.size ≤ v.capacity → i ≤ v.size →
      v.size - i ≤ fuel →
      ∃ w, erase_loop hit fuel v i (v.element_size * i) = .done w ∧ w.Backed ∧
        w.capacity = v.capacity ∧ w.element_size = v.element_size ∧
        w.elems = v.elems.take i ++ (v.elems.drop i).filter (fun e => !hit e) := by
  intro fuel
  induction fuel with
  | zero =>
    intro v i hb hsz hi hf
    refine ⟨v, ?_, hb, rfl, rfl, ?_⟩
    · simp only [erase_loop]
      rw [if_neg (by omega)]
    · rw [List.drop_of_length_le (by rw [elems_length]; omega),
        List.take_of_length_le (by rw [elems_length]; omega)]
      simp
  | succ n ih =>
    intro v i hb hsz hi hf
    by_cases hlt : i < v.size
    · have hil : i < v.elems.length := by rw [elems_length]; exact hlt
      have hdrop : v.elems.drop i = v.slot i :: v.elems.drop (i + 1) := by
        rw [List.drop_eq_getElem_cons hil, elems_getElem hil]
      have hpi : v.element_size * i < SIZE_MOD := by
        have := Nat.mul_le_mul_left v.element_size (show i ≤ v.capacity by omega)
        have := hb.2.1
        omega
      simp only [erase_loop]
      rw [if_pos hlt, element_at_slot hb (by omega)]
      simp only
      by_cases hh : hit (v.slot i) = true
      · rw [if_pos hh]
        obtain ⟨w1, hw1, hw1b, hw1s, hw1c, hw1e, hw1l⟩ := erase_elems hb hsz hlt
        rw [hw1]
        simp only
        rw [hw1e, szAdd_szSub (by have := hb.2.2.2.1; omega), szAdd_szSub hpi]
        obtain ⟨w, hw, hwb, hwc, hwe, hwl⟩ :=
          ih w1 i hw1b (by omega) (by omega) (by omega)
        rw [hw1e] at hw
        refine ⟨w, hw, hwb, by omega, by rw [hwe, hw1e], ?_⟩
        obtain ⟨t1, t2⟩ := take_take_append_drop v.elems i hil
        rw [hwl, hw1l, t1, t2, hdrop, List.filter_cons_of_neg (by simp [hh])]
      · rw [if_neg hh]
        have hs : v.size < SIZE_MOD := hb.2.2.2.1
        have hm := Nat.mul_le_mul_left v.element_size (show i + 1 ≤ v.capacity by omega)
        have hb1 := hb.2.1
        rw [szAdd_of_lt (by omega), szAdd_of_lt (by rw [Nat.mul_succ] at hm; omega),
          ← Nat.mul_succ]
        obtain ⟨w, hw, hwb, hwc, hwe, hwl⟩ := ih v (i + 1) hb hsz (by omega) (by omega)
        refine ⟨w, hw, hwb, hwc, hwe, ?_⟩
        rw [hwl, hdrop, List.filter_cons_of_pos (by simp [hh]), List.take_succ,
          List.getElem?_eq_getElem hil, elems_getElem hil]
        simp
    · refine ⟨v, ?_, hb, rfl, rfl, ?_⟩
      · simp only [erase_loop]
        rw [if_neg hlt]
      · rw [List.drop_of_length_le (by rw [elems_length]; omega),
          List.take_of_length_le (by rw [elems_length]; omega)]
        simp

/-! ## Facts that need no well-formedness -/

theorem store_fields {v w : Vector} {op : List Nat → Option (List Nat)}
    (h : store v op = .done w) :
    w.capacity = v.capacity ∧ w.size = v.size ∧ w.element_size = v.element_size := by
  unfold store at h
  split at h
  · cases h
  · split at h
    · cases h
    · cases h
      exact ⟨rfl, rfl, rfl⟩

/-- When `resize` completes the size is the target and the loop condition is false. -/
theorem resize_fields {heap : Heap} {fuel ns : Nat} {v w : Vector}
    (h : resize heap fuel v ns = .done w) :
    w.size = ns ∧ ¬ szAdd ns VECTOR_ALLOC_THRES > w.capacity := by
  unfold resize at h
  simp only at h
  split at h
  · rename_i u hl
    split at h
    · rename_i x hx
      cases h
      obtain ⟨hc, -, -⟩ := store_fields hx
      refine ⟨rfl, ?_⟩
      show ¬ szAdd ns VECTOR_ALLOC_THRES > x.capacity
      rw [hc]
      rcases resize_loop_done hl with ⟨h1, rfl⟩ | ⟨-, -, h2⟩
      · exact h1
      · exact h2
    · rename_i r hr
      exact absurd h (hr _)
  · rename_i r hr
    exact absurd h (hr _)

/-- The loop of `resize` never exits when the target exceeds twice the capacity. -/
theorem resize_diverges {heap : Heap} {ns : Nat} {v : Vector} (hns : ns < SIZE_MOD)
    (hd : 2 * v.capacity < SIZE_MOD) (h : 2 * v.capacity < ns) (fuel : Nat) :
    resize heap fuel v ns = .outOfFuel := by
  have hl : resize_loop heap ns (szAdd (szMul v.capacity 2) VECTOR_ALLOC_MARGIN) fuel v =
      .outOfFuel := by
    rw [doubled_eq hd]
    have hc : szAdd ns VECTOR_ALLOC_THRES > v.capacity := by rw [thres_eq hns]; omega
    cases fuel with
    | zero => simp only [resize_loop, if_pos hc]
    | succ n =>
      rw [resize_loop_step hc, if_pos]
      rw [thres_eq hns]
      rcases reserve_capacity heap v (2 * v.capacity) with h1 | ⟨-, h1⟩ <;> omega
  unfold resize
  simp only [hl]

theorem erase_fields {v w : Vector} {i : Nat} (h : erase v i = .done w) :
    w.capacity = v.capacity ∧ w.size = szSub v.size 1 ∧ w.element_size = v.element_size := by
  unfold erase at h
  simp only at h
  split at h
  · rename_i x hx
    cases h
    obtain ⟨hc, hs, he⟩ := store_fields hx
    exact ⟨hc, by show szSub x.size 1 = _; rw [hs], he⟩
  · rename_i r hr
    exact absurd h (hr _)

theorem szSub_one_le {n : Nat} (h : 1 ≤ n) : szSub n 1 ≤ n - 1 := by
  unfold szSub SIZE_MOD
  omega

theorem erase_loop_keeps (hit : List Nat → Bool) :
    ∀ (fuel : Nat) (v w : Vector) (i pi : Nat), v.size ≤ v.capacity →
      erase_loop hit fuel v i pi = .done w → w.size ≤ w.capacity := by
  intro fuel
  induction fuel with
  | zero =>
    intro v w i pi hsz h
    simp only [erase_loop] at h
    split at h
    · cases h
    · cases h; exact hsz
  | succ n ih =>
    intro v w i pi hsz h
    simp only [erase_loop] at h
    split at h
    · rename_i hlt
      split at h
      · cases h
      · split at h
        · split at h
          · rename_i w1 hw1
            obtain ⟨hc, hs, -⟩ := erase_fields hw1
            have := szSub_one_le (show 1 ≤ v.size by omega)
            exact ih w1 w _ _ (by omega) h
          · rename_i r hr
            exact absurd h (hr _)
        · exact ih v w _ _ hsz h
    · cases h; exact hsz

/-- C4 (not met by the code): with an allocator that grants every request, `resize` of an
empty vector of capacity 4 to size 9 does not complete, whatever the fuel: the loop asks
for the once-doubled capacity 8 again and again. -/
theorem resize_past_double_never_completes :
    ∀ fuel, resize (grants fun _ _ => 0) fuel sampleEmpty4 9 = .outOfFuel :=
  fun fuel => resize_diverges (by decide) (by decide) (by decide) fuel

/-- C5: `size ≤ capacity` is kept by every operation that completes: `reserve`, `resize`
(to a `size_t` target), `push_back`, `insert` (`index ≤ size`), `erase` (`index < size`),
`erase_value`, `erase_if`, `shrink_to_fit` and `clear`. -/
theorem size_le_capacity_kept (heap : Heap) (fuel : Nat) (v : Vector)
    (h : v.size ≤ v.capacity) :
    (∀ nc, (reserve heap v nc).size ≤ (reserve heap v nc).capacity) ∧
    (∀ ns w, ns < SIZE_MOD → resize heap fuel v ns = .done w → w.size ≤ w.capacity) ∧
    (∀ x w, push_back heap fuel v x = .done w → w.size ≤ w.capacity) ∧
    (∀ i x w, i ≤ v.size → insert heap fuel v i x = .done w → w.size ≤ w.capacity) ∧
    (∀ i w, i < v.size → erase v i = .done w → w.size ≤ w.capacity) ∧
    (∀ value cmp w, erase_value fuel v value cmp = .done w → w.size ≤ w.capacity) ∧
    (∀ p w, erase_if fuel v p = .done w → w.size ≤ w.capacity) ∧
    (shrink_to_fit heap v).size ≤ (shrink_to_fit heap v).capacity ∧
    (clear v).size ≤ (clear v).capacity := by
  have hmod : ∀ n, szAdd n 1 < SIZE_MOD := fun n => Nat.mod_lt _ (by decide)
  have hres : ∀ ns w, ns < SIZE_MOD → resize heap fuel v ns = .done w →
      w.size ≤ w.capacity := by
    intro ns w hns hw
    obtain ⟨hs, hc⟩ := resize_fields hw
    rw [thres_eq hns] at hc
    omega
  refine ⟨?_, hres, ?_, ?_, ?_, ?_, ?_, ?_, ?_⟩
  · intro nc
    rw [reserve_size]
    rcases reserve_capacity heap v nc with h1 | ⟨h1, h2⟩ <;> omega
  · intro x w hw
    unfold push_back at hw
    simp only at hw
    split at hw
    · rename_i u hu
      obtain ⟨hc, hs, -⟩ := store_fields hw
      have := hres _ _ (hmod _) hu
      omega
    · rename_i r hr
      exact absurd hw (hr _)
  · intro i x w _ hw
    unfold insert at hw
    simp only at hw
    split at hw
    · rename_i u hu
      split at hw
      · rename_i u2 hu2
        obtain ⟨hc, hs, -⟩ := store_fields hw
        obtain ⟨hc2, hs2, -⟩ := store_fields hu2
        have := hres _ _ (hmod _) hu
        omega
      · rename_i r hr
        exact absurd hw (hr _)
    · rename_i r hr
      exact absurd hw (hr _)
  · intro i w hi hw
    obtain ⟨hc, hs, -⟩ := erase_fields hw
    have := szSub_one_le (show 1 ≤ v.size by omega)
    omega
  · intro value cmp w hw
    exact erase_loop_keeps _ fuel v w 0 0 h hw
  · intro p w hw
    exact erase_loop_keeps _ fuel v w 0 0 h hw
  · unfold shrink_to_fit
    split
    · exact h
    · exact Nat.le_refl _
  · exact Nat.le_refl _

/-- Witness of C5 on the vector `[1], [2], [3]` with capacity 4. -/
theorem size_le_capacity_kept_witness :
    (reserve refuses sample123 9).size ≤ (reserve refuses sample123 9).capacity :=
  (size_le_capacity_kept refuses 1 sample123 (by decide)).1 9

/-! ## Granted growth -/

/-- The capacity after `insert` or `push_back` on a well-formed vector. -/
theorem grown_capacity {heap : Heap} {fuel : Nat} {v w : Vector} (hb : v.Backed)
    (hsz : v.size ≤ v.capacity) (hfit : v.Fits)
    (hw : resize heap fuel v (szAdd v.size 1) = .done w) :
    w.capacity = if v.size + 1 ≤ v.capacity then v.capacity else 2 * v.capacity := by
  have hlt : v.size + 1 < SIZE_MOD := by
    have := hfit.1
    have := one_lt_SIZE_MOD
    omega
  rw [szAdd_of_lt hlt] at hw
  exact (resize_done hb hsz hfit hlt hw).2.2.2.2.1

/-- With a granting allocator, `resize (size + 1)` completes when `capacity ≥ 1`. -/
theorem grow_by_one_completes (junk : Nat → Nat → Nat) {fuel : Nat} {v : Vector}
    (hb : v.Backed) (hsz : v.size ≤ v.capacity) (hfit : v.Fits) (hc : 1 ≤ v.capacity)
    (hfuel : 1 ≤ fuel) :
    ∃ w, resize (grants junk) fuel v (szAdd v.size 1) = .done w := by
  have hlt : v.size + 1 < SIZE_MOD := by have := hfit.1; omega
  rw [szAdd_of_lt hlt]
  exact resize_completes hb hsz hfit (by omega) (Or.inr ⟨hfuel, by simp [grants]⟩)

theorem init_vector_granted (junk : Nat → Nat → Nat) (prior : Vector) (hint es : Nat)
    (h1 : es * hint < SIZE_MOD) (h2 : es < SIZE_MOD) (h3 : hint < SIZE_MOD) :
    (init_vector (grants junk) prior hint es).Backed ∧
      (init_vector (grants junk) prior hint es).size = 0 ∧
      (init_vector (grants junk) prior hint es).capacity = hint ∧
      (init_vector (grants junk) prior hint es).element_size = es := by
  have e : init_vector (grants junk) prior hint es =
      { data := some ((List.range (es * hint)).map (fun j => ([] : List Nat).getD j (junk (es * hint) j))),
        element_size := es, size := 0, capacity := hint } := by
    unfold init_vector malloc realloc grants VECTOR_OFFSET
    simp only [szMul_of_lt h1]
    rfl
  rw [e]
  refine ⟨⟨?_, h1, h2, (by show 0 < SIZE_MOD; decide), h3⟩, rfl, rfl, rfl⟩
  simp

theorem ops_ok_take (es : Nat) : ∀ (ops : List Op) (n k : Nat), ops_ok es n ops →
    ops_ok es n (ops.take k) := by
  intro ops
  induction ops with
  | nil => intro n k h; simpa using h
  | cons op rest ih =>
    intro n k h
    cases k with
    | zero => simp [ops_ok]
    | succ k =>
      cases op with
      | p x => exact ⟨h.1, ih _ _ h.2⟩
      | i idx x => exact ⟨h.1, h.2.1, ih _ _ h.2.2⟩
      | e idx => exact ⟨h.1, ih _ _ h.2⟩

/-- A run of `push_back`, `insert` and `erase` calls on a well-formed vector, with a
granting allocator; `B` bounds every capacity that is reached. -/
theorem run_ops_spec (junk : Nat → Nat → Nat) (fuel B : Nat) (hfuel : 1 ≤ fuel)
    (hB : 2 * B < SIZE_MOD) :
    ∀ (ops : List Op) (v : Vector), v.Backed → v.size ≤ v.capacity → 1 ≤ v.capacity →
      v.capacity ≤ B → 2 * (v.size + ops.length) ≤ B →
      v.element_size * (2 * B) < SIZE_MOD → ops_ok v.element_size v.size ops →
      ∃ w, run_ops (grants junk) fuel v ops = .done w ∧
        w.size + removals ops = v.size + additions ops ∧ w.size ≤ w.capacity := by
  intro ops
  induction ops with
  | nil =>
    intro v hb hsz hc hcB hL hE hok
    exact ⟨v, rfl, rfl, hsz⟩
  | cons op rest ih =>
    intro v hb hsz hc hcB hL hE hok
    have hfit : v.Fits := by
      refine ⟨by omega, ?_⟩
      have := Nat.mul_le_mul_left v.element_size (show 2 * v.capacity ≤ 2 * B by omega)
      omega
    rw [List.length_cons] at hL
    cases op with
    | p x =>
      obtain ⟨w0, hw0⟩ := grow_by_one_completes junk hb hsz hfit hc hfuel
      have hcap := grown_capacity hb hsz hfit hw0
      obtain ⟨w1, hw1, hw1b, hw1s, hw1e, hw1c, -⟩ :=
        push_back_of_resize hb hsz hfit hok.1 hw0
      have hcap1 : (v.size + 1 ≤ v.capacity ∧ w1.capacity = v.capacity) ∨
          (v.capacity = v.size ∧ w1.capacity = 2 * v.capacity) := by
        rw [hw1c, hcap]; split_ifs <;> omega
      have hok2 := hok.2
      rw [← hw1e, ← hw1s] at hok2
      have g1 : w1.size ≤ w1.capacity := by omega
      have g2 : 1 ≤ w1.capacity := by omega
      have g3 : w1.capacity ≤ B := by omega
      have g4 : 2 * (w1.size + rest.length) ≤ B := by omega
      obtain ⟨w, hw, hws, hwc⟩ := ih w1 hw1b g1 g2 g3 g4 (by rw [hw1e]; exact hE) hok2
      refine ⟨w, ?_, ?_, hwc⟩
      · simp only [run_ops, Op.run, hw1, hw]
      · simp only [additions, removals]; omega
    | i idx x =>
      obtain ⟨w0, hw0⟩ := grow_by_one_completes junk hb hsz hfit hc hfuel
      have hcap := grown_capacity hb hsz hfit hw0
      obtain ⟨w1, hw1, hw1b, hw1s, hw1e, hw1c, -⟩ :=
        insert_of_resize hb hsz hfit hok.1 hok.2.1 hw0
      have hcap1 : (v.size + 1 ≤ v.capacity ∧ w1.capacity = v.capacity) ∨
          (v.capacity = v.size ∧ w1.capacity = 2 * v.capacity) := by
        rw [hw1c, hcap]; split_ifs <;> omega
      have hok2 := hok.2.2
      rw [← hw1e, ← hw1s] at hok2
      obtain ⟨w, hw, hws, hwc⟩ := ih w1 hw1b (by omega) (by omega) (by omega) (by omega)
        (by rw [hw1e]; exact hE) hok2
      refine ⟨w, ?_, ?_, hwc⟩
      · simp only [run_ops, Op.run, hw1, hw]
      · simp only [additions, removals]; omega
    | e idx =>
      have hidx : idx < v.size := hok.1
      obtain ⟨w1, hw1, hw1b, hw1s, hw1c, hw1e, -⟩ := erase_elems hb hsz hidx
      have hok2 := hok.2
      rw [← hw1e, ← hw1s] at hok2
      obtain ⟨w, hw, hws, hwc⟩ := ih w1 hw1b (by omega) (by omega) (by omega) (by omega)
        (by rw [hw1e]; exact hE) hok2
      refine ⟨w, ?_, ?_, hwc⟩
      · simp only [run_ops, Op.run, hw1, hw]
      · simp only [additions, removals]; omega

/-- C6: from `init_vector` with a positive capacity hint and a granting allocator (all
sizes reached being representable), after each operation of a run of `push_back`,
`insert` (`index ≤ size`) and `erase` (`index < size`) calls — that is, after every
prefix `ops.take k` — the run has completed, the size is the number of additions minus
the number of erasures, and `size ≤ capacity`. -/
theorem ops_sequence_sizes (junk : Nat → Nat → Nat) (fuel : Nat) (prior : Vector)
    (hint es : Nat) (ops : List Op) (k : Nat) (hpos : 1 ≤ hint) (hfuel : 1 ≤ fuel)
    (hok : ops_ok es 0 ops)
    (hrep : 2 * (hint + 2 * ops.length) < SIZE_MOD ∧
      es * (2 * (hint + 2 * ops.length)) < SIZE_MOD) :
    ∃ w, run_ops (grants junk) fuel (init_vector (grants junk) prior hint es) (ops.take k) =
        .done w ∧
      (w.size : Int) = (additions (ops.take k) : Int) - (removals (ops.take k) : Int) ∧
      w.size ≤ w.capacity := by
  have h1 := Nat.mul_le_mul_left es (show hint ≤ 2 * (hint + 2 * ops.length) by omega)
  have h2 := Nat.mul_le_mul_left es (show 1 ≤ 2 * (hint + 2 * ops.length) by omega)
  rw [Nat.mul_one] at h2
  obtain ⟨hb, hs, hc, he⟩ := init_vector_granted junk prior hint es
    (by omega) (by omega) (by omega)
  have hlen : (ops.take k).length ≤ ops.length := by rw [List.length_take]; omega
  have hok2 := ops_ok_take es ops 0 k hok
  rw [← he, ← hs] at hok2
  obtain ⟨w, hw, hws, hwc⟩ := run_ops_spec junk fuel (hint + 2 * ops.length) hfuel hrep.1
    (ops.take k) _ hb (by omega) (by omega) (by omega) (by omega) (by rw [he]; exact hrep.2)
    hok2
  exact ⟨w, hw, by omega, hwc⟩

/-- Witness of C6: the whole of a run of eight operations from capacity hint 2. -/
theorem ops_sequence_sizes_witness :
    ∃ w, run_ops (grants fun _ _ => 0) 1 (init_vector (grants fun _ _ => 0) sample123 2 1)
        (sampleOps.take 8) = .done w ∧
      (w.size : Int) = (additions (sampleOps.take 8) : Int) - (removals (sampleOps.take 8) : Int) ∧
      w.size ≤ w.capacity :=
  ops_sequence_sizes (fun _ _ => 0) 1 sample123 2 1 sampleOps 8 (by decide) (by decide)
    (by decide) (by decide)

theorem take_cons_drop_erase {α : Type} (l : List α) (x : α) (i : Nat) (hi : i ≤ l.length) :
    (l.take i ++ x :: l.drop i).take i ++ (l.take i ++ x :: l.drop i).drop (i + 1) = l := by
  have hlen : (l.take i).length = i := by rw [List.length_take]; omega
  have h1 : (l.take i ++ x :: l.drop i).take i = l.take i := by
    rw [List.take_append_of_le_length (by omega), List.take_of_length_le (by omega)]
  have h2 : (l.take i ++ x :: l.drop i).drop (i + 1) = l.drop i := by
    rw [show i + 1 = (l.take i).length + 1 from by omega, List.drop_append]
    rfl
  rw [h1, h2, List.take_append_drop]

/-- C7: for a well-formed vector with `capacity ≥ 1` and `size ≤ capacity`, `index ≤ size`
and an element of `element_size` bytes (allocator granting, fuel `≥ 1`), `insert` at
`index` and then `erase` at `index` both complete and give back the size and the logical
sequence the vector had. -/
theorem insert_then_erase (junk : Nat → Nat → Nat) (fuel : Nat) (v : Vector) (index : Nat)
    (x : List Nat) (hb : v.Backed) (hfit : v.Fits) (hc : 1 ≤ v.capacity)
    (hsz : v.size ≤ v.capacity) (hi : index ≤ v.size) (hx : x.length = v.element_size)
    (hfuel : 1 ≤ fuel) :
    ∃ w1 w2, insert (grants junk) fuel v index x = .done w1 ∧ erase w1 index = .done w2 ∧
      w2.size = v.size ∧ w2.elems = v.elems := by
  obtain ⟨w0, hw0⟩ := grow_by_one_completes junk hb hsz hfit hc hfuel
  have hcap := grown_capacity hb hsz hfit hw0
  obtain ⟨w1, hw1, hw1b, hw1s, -, hw1c, hw1l⟩ := insert_of_resize hb hsz hfit hi hx hw0
  have hle : w1.size ≤ w1.capacity := by
    rw [hw1c, hcap, hw1s]; split_ifs <;> omega
  obtain ⟨w2, hw2, -, hw2s, -, -, hw2l⟩ := erase_elems hw1b hle (show index < w1.size by omega)
  refine ⟨w1, w2, hw1, hw2, by omega, ?_⟩
  rw [hw2l, hw1l]
  exact take_cons_drop_erase _ _ _ (by rw [elems_length]; exact hi)

/-- Witness of C7: `[9]` inserted at index 1 of `[1], [2], [3]` and erased again. -/
theorem insert_then_erase_witness :
    ∃ w1 w2, insert (grants fun _ _ => 0) 1 sample123 1 [9] = .done w1 ∧
      erase w1 1 = .done w2 ∧ w2.size = sample123.size ∧ w2.elems = sample123.elems :=
  insert_then_erase (fun _ _ => 0) 1 sample123 1 [9]
    (by decide) (by decide) (by decide) (by decide) (by decide) (by decide) (by decide)

/-! ## Claims -/

/-- C1: for a well-formed vector with `capacity ≥ 1` and `size ≤ capacity`, an index
`index ≤ size` and an element `x` of `element_size` bytes, with an allocator that grants
every request (the doubled capacity being representable) and any fuel `≥ 1`, `insert`
completes; the result has `size + 1` elements: the old elements before `index`, then `x`,
then the old elements from `index` on, byte for byte. -/
theorem insert_shifts_right (junk : Nat → Nat → Nat) (fuel : Nat) (v : Vector) (index : Nat)
    (x : List Nat) (hb : v.Backed) (hfit : v.Fits) (hc : 1 ≤ v.capacity)
    (hsz : v.size ≤ v.capacity) (hi : index ≤ v.size) (hx : x.length = v.element_size)
    (hfuel : 1 ≤ fuel) :
    ∃ w, insert (grants junk) fuel v index x = .done w ∧ w.size = v.size + 1 ∧
      w.elems = v.elems.take index ++ x :: v.elems.drop index := by
  obtain ⟨w0, hw0⟩ := grow_by_one_completes junk hb hsz hfit hc hfuel
  obtain ⟨w, hw, -, hs, -, -, hl⟩ := insert_of_resize hb hsz hfit hi hx hw0
  exact ⟨w, hw, hs, hl⟩

/-- Witness of C1: inserting `[9]` at index 1 of `[1], [2], [3]` (capacity 4). -/
theorem insert_shifts_right_witness :
    ∃ w, insert (grants fun _ _ => 0) 1 sample123 1 [9] = .done w ∧
      w.size = sample123.size + 1 ∧
      w.elems = sample123.elems.take 1 ++ [9] :: sample123.elems.drop 1 :=
  insert_shifts_right (fun _ _ => 0) 1 sample123 1 [9]
    (by decide) (by decide) (by decide) (by decide) (by decide) (by decide) (by decide)

/-- C2: for a well-formed vector with `size ≤ capacity` and `index < size`, `erase`
completes; the result has `size - 1` elements, the old sequence without the element at
`index` (those before it unchanged, those after it one slot to the left), and the
capacity is unchanged. -/
theorem erase_closes_gap (v : Vector) (index : Nat) (hb : v.Backed)
    (hsz : v.size ≤ v.capacity) (hi : index < v.size) :
    ∃ w, erase v index = .done w ∧ w.size = v.size - 1 ∧ w.capacity = v.capacity ∧
      w.elems = v.elems.take index ++ v.elems.drop (index + 1) := by
  obtain ⟨w, hw, -, hs, hc, -, hl⟩ := erase_elems hb hsz hi
  exact ⟨w, hw, hs, hc, hl⟩

/-- Witness of C2: erasing index 0 of `[1], [2], [3]`. -/
theorem erase_closes_gap_witness :
    ∃ w, erase sample123 0 = .done w ∧ w.size = sample123.size - 1 ∧
      w.capacity = sample123.capacity ∧
      w.elems = sample123.elems.take 0 ++ sample123.elems.drop (0 + 1) :=
  erase_closes_gap sample123 0 (by decide) (by decide) (by decide)

/-- C3: for a well-formed vector with `size ≤ capacity`, a value and a comparator,
`erase_value` completes with any fuel `≥ size`; the result holds exactly the old elements
`e` with `cmp value e ≠ 0`, in their order, and the capacity is unchanged. -/
theorem erase_value_filters (fuel : Nat) (v : Vector) (value : List Nat)
    (cmp : List Nat → List Nat → Int) (hb : v.Backed) (hsz : v.size ≤ v.capacity)
    (hfuel : v.size ≤ fuel) :
    ∃ w, erase_value fuel v value cmp = .done w ∧ w.capacity = v.capacity ∧
      w.elems = v.elems.filter (fun e => cmp value e ≠ 0) := by
  obtain ⟨w, hw, -, hc, -, hl⟩ :=
    erase_loop_spec (fun e => cmp value e == 0) fuel v 0 hb hsz (by omega) (by omega)
  refine ⟨w, ?_, hc, ?_⟩
  · unfold erase_value
    rw [Nat.mul_zero] at hw
    exact hw
  · rw [hl, List.take_zero, List.drop_zero, List.nil_append]
    congr 1
    funext e
    by_cases h : cmp value e = 0 <;> simp [h]

/-- Witness of C3: erasing the value `[7]` from `[7], [7], [1], [7]`, where the first
element and consecutive elements match. -/
theorem erase_value_filters_witness :
    ∃ w, erase_value 4 sample7717 [7] byte_cmp = .done w ∧
      w.capacity = sample7717.capacity ∧
      w.elems = sample7717.elems.filter (fun e => byte_cmp [7] e ≠ 0) :=
  erase_value_filters 4 sample7717 [7] byte_cmp (by decide) (by decide) (by decide)

/-! ## Slots after `resize` -/

theorem slot_zero_of_bytes {w : Vector} {i : Nat}
    (h : ∀ k, k < w.element_size → w.bytes[w.element_size * i + k]? = some 0) :
    w.slot i = List.replicate w.element_size 0 := by
  apply List.ext_getElem?
  intro k
  rw [slot_get, List.getElem?_replicate]
  split_ifs with hk
  · exact h k hk
  · rfl

theorem elems_eq_of_slots {v w : Vector} (hs : w.size = v.size)
    (h : ∀ i, i < v.size → w.slot i = v.slot i) : w.elems = v.elems := by
  unfold Vector.elems
  rw [hs]
  apply List.map_congr_left
  intro i hi
  exact h i (List.mem_range.mp hi)

/-- The slots of a well-formed vector after a completed `resize`. -/
theorem resize_slots {heap : Heap} {fuel ns : Nat} {v w : Vector} (hb : v.Backed)
    (hsz : v.size ≤ v.capacity) (hfit : v.Fits) (hns : ns < SIZE_MOD)
    (h : resize heap fuel v ns = .done w) :
    (∀ i, i < v.size → w.slot i = v.slot i) ∧
      (∀ i, v.size ≤ i → i < w.capacity → w.slot i = List.replicate w.element_size 0) := by
  obtain ⟨-, -, hwe, -, -, hlo, hhi⟩ := resize_done hb hsz hfit hns h
  constructor
  · intro i hi
    apply slot_eq_of_bytes hwe
    intro k hk
    have hm := Nat.mul_le_mul_left v.element_size (show i + 1 ≤ v.size from hi)
    rw [Nat.mul_succ] at hm
    exact hlo _ (by omega)
  · intro i hi1 hi2
    apply slot_zero_of_bytes
    intro k hk
    rw [hwe] at hk ⊢
    have hm := Nat.mul_le_mul_left v.element_size hi1
    have hm2 := Nat.mul_le_mul_left v.element_size (show i + 1 ≤ w.capacity from hi2)
    rw [Nat.mul_succ] at hm2
    exact hhi _ (by omega) (by omega)

/-- C8: for a well-formed vector (whatever its bytes) and sizes `n < m`, when `resize n`
and then `resize m` both complete (no `size_t` overflow in the doubled capacities), the
result has size `m`, every byte of the slots `[n, m)` is zero, and the slots
`[0, min n size)` are as they were. -/
theorem resize_twice_zero_fills (heap1 heap2 : Heap) (fuel1 fuel2 n m : Nat)
    (v v1 v2 : Vector) (hb : v.Backed) (hsz : v.size ≤ v.capacity) (hfit : v.Fits)
    (hfit1 : v1.Fits) (hnm : n < m) (hm : m < SIZE_MOD)
    (h1 : resize heap1 fuel1 v n = .done v1) (h2 : resize heap2 fuel2 v1 m = .done v2) :
    v2.size = m ∧
      (∀ i, n ≤ i → i < m → v2.slot i = List.replicate v.element_size 0) ∧
      (∀ i, i < min n v.size → v2.slot i = v.slot i) := by
  obtain ⟨hb1, hs1, he1, hle1, -, -, -⟩ := resize_done hb hsz hfit (by omega) h1
  obtain ⟨k1, -⟩ := resize_slots hb hsz hfit (by omega) h1
  obtain ⟨-, hs2, he2, hle2, -, -, -⟩ := resize_done hb1 (by omega) hfit1 hm h2
  obtain ⟨k2, z2⟩ := resize_slots hb1 (by omega) hfit1 hm h2
  refine ⟨hs2, ?_, ?_⟩
  · intro i hi1 hi2
    rw [← he1, ← he2]
    exact z2 i (by omega) (by omega)
  · intro i hi
    rw [k2 i (by omega), k1 i (by omega)]

/-- Witness of C8: `[1], [2], [3]` resized to 1 and then to 6. -/
theorem resize_twice_zero_fills_witness :
    (Vector.mk (some [1, 0, 0, 0, 0, 0, 0, 0]) 1 6 8).size = 6 ∧
      (∀ i, 1 ≤ i → i < 6 → (Vector.mk (some [1, 0, 0, 0, 0, 0, 0, 0]) 1 6 8).slot i =
        List.replicate sample123.element_size 0) ∧
      (∀ i, i < min 1 sample123.size →
        (Vector.mk (some [1, 0, 0, 0, 0, 0, 0, 0]) 1 6 8).slot i = sample123.slot i) :=
  resize_twice_zero_fills (grants fun _ _ => 5) (grants fun _ _ => 5) 1 1 1 6 sample123
    (Vector.mk (some [1, 2, 3, 0]) 1 1 4) (Vector.mk (some [1, 0, 0, 0, 0, 0, 0, 0]) 1 6 8)
    (by decide) (by decide) (by decide) (by decide) (by decide) (by decide) (by decide)
    (by decide)

/-- C9 fails when shrinking: `resize` of the full vector `[7], [7], [1], [7]` to size 1
completes and leaves slot 1 (in `[size, capacity)`) holding the byte 7. -/
theorem resize_shrink_leaves_tail :
    resize refuses 0 sample7717 1 = .done (Vector.mk (some [7, 7, 1, 7]) 1 1 4) ∧
      (Vector.mk (some [7, 7, 1, 7]) 1 1 4).size ≤ 1 ∧
      1 < (Vector.mk (some [7, 7, 1, 7]) 1 1 4).capacity ∧
      (Vector.mk (some [7, 7, 1, 7]) 1 1 4).slot 1 ≠ List.replicate 1 0 := by
  decide

/-- C9 as amended: for a well-formed vector and a target for which `resize` completes,
every byte of the slots from `max size new_size` (old size) up to the capacity of the
result is zero; when `new_size ≥ size` these are the slots `[size, capacity)` of the
result. -/
theorem resize_zero_tail (heap : Heap) (fuel ns : Nat) (v w : Vector) (hb : v.Backed)
    (hsz : v.size ≤ v.capacity) (hfit : v.Fits) (hns : ns < SIZE_MOD)
    (h : resize heap fuel v ns = .done w) :
    w.size = ns ∧
      ∀ i, max v.size ns ≤ i → i < w.capacity → w.slot i = List.replicate w.element_size 0 := by
  obtain ⟨-, hs, -, -, -, -, -⟩ := resize_done hb hsz hfit hns h
  obtain ⟨-, z⟩ := resize_slots hb hsz hfit hns h
  exact ⟨hs, fun i hi1 hi2 => z i (by omega) hi2⟩

/-- Witness of C9 as amended: `[1], [2], [3]` resized to 5 (capacity doubled to 8). -/
theorem resize_zero_tail_witness :
    (Vector.mk (some [1, 2, 3, 0, 0, 0, 0, 0]) 1 5 8).size = 5 ∧
      ∀ i, max sample123.size 5 ≤ i → i < (Vector.mk (some [1, 2, 3, 0, 0, 0, 0, 0]) 1 5 8).capacity →
        (Vector.mk (some [1, 2, 3, 0, 0, 0, 0, 0]) 1 5 8).slot i =
          List.replicate (Vector.mk (some [1, 2, 3, 0, 0, 0, 0, 0]) 1 5 8).element_size 0 :=
  resize_zero_tail (grants fun _ _ => 5) 1 5 sample123
    (Vector.mk (some [1, 2, 3, 0, 0, 0, 0, 0]) 1 5 8) (by decide) (by decide) (by decide)
    (by decide) (by decide)

/-- When `realloc` hands `shrink_to_fit` a block, on a well-formed vector with
`size ≤ capacity`, the capacity becomes the size, the size is kept and every element in
`[0, size)` is byte for byte what it was. -/
theorem shrink_to_fit_of_block {heap : Heap} {junk : Nat → Nat} {v : Vector} (hb : v.Backed)
    (hsz : v.size ≤ v.capacity) (hg : heap (v.element_size * v.size) = some junk) :
    (shrink_to_fit heap v).capacity = v.size ∧
      (shrink_to_fit heap v).size = v.size ∧
      (shrink_to_fit heap v).elems = v.elems ∧
      (shrink_to_fit heap v).Backed := by
  obtain ⟨block, hd, hlen⟩ := Backed_block hb
  have e1 : VECTOR_OFFSET v v.size = v.element_size * v.size := offset_eq hb hsz
  have a1 := Nat.mul_le_mul_left v.element_size hsz
  have hr : ∃ r, realloc heap v.data (v.element_size * v.size) = some r := by
    unfold realloc
    rw [hg]
    exact ⟨_, rfl⟩
  obtain ⟨r, hr⟩ := hr
  have e : shrink_to_fit heap v = { v with data := some r, capacity := v.size } := by
    unfold shrink_to_fit
    rw [e1, hr]
  rw [e]
  obtain ⟨w, hw⟩ : ∃ w : Vector, w = { v with data := some r, capacity := v.size } :=
    ⟨_, rfl⟩
  rw [← hw]
  have hws : w.size = v.size := by rw [hw]
  have hwe : w.element_size = v.element_size := by rw [hw]
  have hwc : w.capacity = v.size := by rw [hw]
  have hwb : w.bytes = r := by rw [hw]; rfl
  have hwd : w.data = some r := by rw [hw]
  refine ⟨hwc, hws, elems_eq_of_slots hws ?_, ?_⟩
  · intro i hi
    apply slot_eq_of_bytes hwe
    intro k hk
    have hm := Nat.mul_le_mul_left v.element_size (show i + 1 ≤ v.size from hi)
    rw [Nat.mul_succ] at hm
    rw [hwb, realloc_get hr _ (by rw [hd]; simp only [Option.getD_some]; omega) (by omega),
      bytes_of_data hd, hd]
    rfl
  · refine ⟨?_, ?_, ?_, ?_, ?_⟩
    · rw [hwd, hwe, hwc]
      simp [realloc_length hr]
    · rw [hwe, hwc]
      have := hb.2.1
      omega
    · rw [hwe]; exact hb.2.2.1
    · rw [hws]; exact hb.2.2.2.1
    · rw [hwc]; exact hb.2.2.2.1

/-- C10 (not met by the code): for the empty vector with four slots and an allocator that
answers the request of 0 bytes as glibc does, `shrink_to_fit` takes the NULL return for a
failure and returns early: the capacity stays 4 while the size is 0, and the block behind
`data` has been freed. -/
theorem shrink_to_fit_empty_keeps_capacity :
    sampleEmpty4.size = 0 ∧ sampleEmpty4.size ≤ sampleEmpty4.capacity ∧
      shrink_to_fit (null_on_zero fun _ _ => 0) sampleEmpty4 =
        { data := none, element_size := 1, size := 0, capacity := 4 } ∧
      (shrink_to_fit (null_on_zero fun _ _ => 0) sampleEmpty4).capacity ≠
        (shrink_to_fit (null_on_zero fun _ _ => 0) sampleEmpty4).size := by
  decide

/-- C11 (not met by the code): `clear` gives size 0 and capacity 0, but the `push_back`
that follows never completes, whatever the allocator and the fuel: the doubled capacity
is `0 * 2 = 0`, so `reserve` is a no-op and the loop of `resize` never exits. -/
theorem push_back_after_clear_never_completes (heap : Heap) (fuel : Nat) (v : Vector)
    (z : List Nat) :
    (clear v).size = 0 ∧ (clear v).capacity = 0 ∧
      push_back heap fuel (clear v) z = .outOfFuel := by
  refine ⟨rfl, rfl, ?_⟩
  have h1 : szAdd (clear v).size 1 = 1 := by show szAdd 0 1 = 1; decide
  have h : resize heap fuel (clear v) (szAdd (clear v).size 1) = .outOfFuel := by
    rw [h1]
    exact resize_diverges (by decide) (by show 2 * 0 < SIZE_MOD; decide)
      (by show 2 * 0 < 1; decide) fuel
  unfold push_back
  simp only [h]

/-- C12: `reserve` leaves the vector as it is when `new_capacity ≤ capacity` and when the
allocator refuses; when it grants a representable request above the capacity of a
well-formed vector, the capacity becomes `new_capacity`, the size is unchanged and every
byte of the old slots is unchanged; the capacity never decreases. -/
theorem reserve_contract (heap : Heap) (v : Vector) (nc : Nat) :
    (nc ≤ v.capacity → reserve heap v nc = v) ∧
    (heap (VECTOR_OFFSET v nc) = none → reserve heap v nc = v) ∧
    (v.Backed → v.capacity < nc → nc < SIZE_MOD → v.element_size * nc < SIZE_MOD →
      heap (v.element_size * nc) ≠ none →
      (reserve heap v nc).capacity = nc ∧ (reserve heap v nc).size = v.size ∧
        ∀ j, j < v.element_size * v.capacity → (reserve heap v nc).bytes[j]? = v.bytes[j]?) ∧
    v.capacity ≤ (reserve heap v nc).capacity := by
  refine ⟨reserve_of_le, reserve_of_refused, ?_, ?_⟩
  · intro hb hlt h1 h2 hg
    obtain ⟨-, hc, hby⟩ := reserve_grow hb hlt ⟨h1, h2⟩ hg
    exact ⟨hc, reserve_size _ _ _, hby⟩
  · rcases reserve_capacity heap v nc with h | ⟨h1, h2⟩ <;> omega

/-- Witness of C12: growing `[1], [2], [3]` from four to six slots. -/
theorem reserve_contract_witness :
    (reserve (grants fun _ _ => 5) sample123 6).capacity = 6 ∧
      (reserve (grants fun _ _ => 5) sample123 6).size = sample123.size ∧
      ∀ j, j < sample123.element_size * sample123.capacity →
        (reserve (grants fun _ _ => 5) sample123 6).bytes[j]? = sample123.bytes[j]? :=
  (reserve_contract (grants fun _ _ => 5) sample123 6).2.2.1 (by decide) (by decide)
    (by decide) (by decide) (by simp [grants])

/-- C13: for a well-formed vector with `capacity ≥ 1` and `size ≤ capacity` and an element
of `element_size` bytes (allocator granting, fuel `≥ 1`), `push_back` completes; the result
holds the old sequence followed by the element, and its capacity is the old one when
`size < capacity` and exactly twice the old one when `size = capacity`. -/
theorem push_back_appends (junk : Nat → Nat → Nat) (fuel : Nat) (v : Vector) (x : List Nat)
    (hb : v.Backed) (hfit : v.Fits) (hc : 1 ≤ v.capacity) (hsz : v.size ≤ v.capacity)
    (hx : x.length = v.element_size) (hfuel : 1 ≤ fuel) :
    ∃ w, push_back (grants junk) fuel v x = .done w ∧ w.size = v.size + 1 ∧
      w.elems = v.elems ++ [x] ∧
      w.capacity = if v.size < v.capacity then v.capacity else 2 * v.capacity := by
  obtain ⟨w0, hw0⟩ := grow_by_one_completes junk hb hsz hfit hc hfuel
  have hcap := grown_capacity hb hsz hfit hw0
  obtain ⟨w, hw, -, hs, -, hwc, hl⟩ := push_back_of_resize hb hsz hfit hx hw0
  refine ⟨w, hw, hs, hl, ?_⟩
  rw [hwc, hcap]
  split_ifs <;> omega

/-- Witness of C13: the fifth push into a full vector of capacity 4. -/
theorem push_back_appends_witness :
    ∃ w, push_back (grants fun _ _ => 5) 1 sample7717 [8] = .done w ∧
      w.size = sample7717.size + 1 ∧ w.elems = sample7717.elems ++ [[8]] ∧
      w.capacity = if sample7717.size < sample7717.capacity then sample7717.capacity
        else 2 * sample7717.capacity :=
  push_back_appends (fun _ _ => 5) 1 sample7717 [8] (by decide) (by decide) (by decide)
    (by decide) (by decide) (by decide)

/-- On a well-formed vector `resize` to a target within the capacity completes for every
allocator and fuel: it zeroes the slots from the old size on and sets the size. -/
theorem resize_within {v : Vector} (hb : v.Backed) (hsz : v.size ≤ v.capacity) {ns : Nat}
    (hns : ns ≤ v.capacity) (heap : Heap) (fuel : Nat) :
    ∃ w, resize heap fuel v ns = .done w ∧ w.size = ns ∧ w.capacity = v.capacity ∧
      w.element_size = v.element_size ∧
      ∀ j, w.bytes[j]? = if v.element_size * v.size ≤ j ∧ j < v.element_size * v.capacity
        then some 0 else v.bytes[j]? := by
  have hlt : ns < SIZE_MOD := by have := hb.2.2.2.2; omega
  obtain ⟨r, hst, -, hrg⟩ := zero_tail_done hb hsz
  refine ⟨{ v with data := some r, size := ns }, ?_, rfl, rfl, rfl, hrg⟩
  unfold resize
  simp only
  rw [resize_loop_exit (by rw [thres_eq hlt]; omega)]
  simp only [hst]

/-- C14: for a well-formed vector with `size ≤ capacity` and a predicate, `erase_if`
completes with any fuel `≥ size`; the result holds exactly the old elements on which the
predicate is zero, in their order, and the capacity is unchanged. -/
theorem erase_if_filters (fuel : Nat) (v : Vector) (predicate : List Nat → Int)
    (hb : v.Backed) (hsz : v.size ≤ v.capacity) (hfuel : v.size ≤ fuel) :
    ∃ w, erase_if fuel v predicate = .done w ∧ w.capacity = v.capacity ∧
      w.elems = v.elems.filter (fun e => predicate e = 0) := by
  obtain ⟨w, hw, -, hc, -, hl⟩ :=
    erase_loop_spec (fun e => predicate e != 0) fuel v 0 hb hsz (by omega) (by omega)
  refine ⟨w, ?_, hc, ?_⟩
  · unfold erase_if
    rw [Nat.mul_zero] at hw
    exact hw
  · rw [hl, List.take_zero, List.drop_zero, List.nil_append]
    congr 1
    funext e
    by_cases h : predicate e = 0 <;> simp [h]

/-- Witness of C14: `is_even` on the `int` elements 2, 99, 3, 4, 5 leaves 99, 3, 5. -/
theorem erase_if_filters_witness :
    (∃ w, erase_if 5 sampleInts is_even = .done w ∧ w.capacity = sampleInts.capacity ∧
      w.elems = sampleInts.elems.filter (fun e => is_even e = 0)) ∧
      sampleInts.elems.filter (fun e => is_even e = 0) =
        [[99, 0, 0, 0], [3, 0, 0, 0], [5, 0, 0, 0]] :=
  ⟨erase_if_filters 5 sampleInts is_even (by decide) (by decide) (by decide), by decide⟩

/-- C15 fails: `resize` of `[1], [2], [3]` to size 1 overwrites the stale byte 9 of the
fourth slot with zero, so the buffer is not what it was. -/
theorem resize_shrink_writes_tail :
    sampleStale.size ≤ sampleStale.capacity ∧ 1 < sampleStale.size ∧
      resize refuses 0 sampleStale 1 = .done (Vector.mk (some [1, 2, 3, 0]) 1 1 4) ∧
      (Vector.mk (some [1, 2, 3, 0]) 1 1 4).bytes ≠ sampleStale.bytes := by
  decide

/-- C15 as amended: for a well-formed vector with `size ≤ capacity` and `new_size < size`,
`resize` completes (for every allocator and fuel), sets the size, leaves the capacity
unchanged and leaves every byte of the slots `[0, size)` (old size) as it was; the bytes
of the slots `[size, capacity)` are then zero. -/
theorem resize_shrink_frame (heap : Heap) (fuel ns : Nat) (v : Vector) (hb : v.Backed)
    (hsz : v.size ≤ v.capacity) (hns : ns < v.size) :
    ∃ w, resize heap fuel v ns = .done w ∧ w.size = ns ∧ w.capacity = v.capacity ∧
      (∀ j, j < v.element_size * v.size → w.bytes[j]? = v.bytes[j]?) ∧
      (∀ j, v.element_size * v.size ≤ j → j < v.element_size * v.capacity →
        w.bytes[j]? = some 0) := by
  obtain ⟨w, hw, hs, hc, -, hby⟩ := resize_within hb hsz (show ns ≤ v.capacity by omega)
    heap fuel
  refine ⟨w, hw, hs, hc, ?_, ?_⟩
  · intro j hj
    rw [hby, if_neg (by omega)]
  · intro j h1 h2
    rw [hby, if_pos ⟨h1, h2⟩]

/-- Witness of C15 as amended, on the vector with the stale byte. -/
theorem resize_shrink_frame_witness :
    ∃ w, resize refuses 0 sampleStale 1 = .done w ∧ w.size = 1 ∧
      w.capacity = sampleStale.capacity ∧
      (∀ j, j < sampleStale.element_size * sampleStale.size →
        w.bytes[j]? = sampleStale.bytes[j]?) ∧
      (∀ j, sampleStale.element_size * sampleStale.size ≤ j →
        j < sampleStale.element_size * sampleStale.capacity → w.bytes[j]? = some 0) :=
  resize_shrink_frame refuses 0 1 sampleStale (by decide) (by decide) (by decide)

/-- C16 (not met by the code): when the allocation fails, `init_vector` returns before
it sets `size` and `capacity`; a struct that held size 5 and capacity 7 still does. -/
theorem init_vector_failure_keeps_fields :
    init_vector refuses sampleGarbage 4 4 =
      { data := none, element_size := 4, size := 5, capacity := 7 } := by
  decide

theorem store_not_outOfFuel (v : Vector) (op : List Nat → Option (List Nat)) :
    store v op ≠ .outOfFuel := by
  unfold store
  split
  · intro h; cases h
  · split <;> intro h <;> cases h

theorem take_append_replicate_get {α : Type} (l : List α) (a : α) (n m : Nat) :
    (l.take n ++ List.replicate (n - l.length) a)[m]? =
      if m < n then (if m < l.length then l[m]? else some a) else none := by
  simp only [List.getElem?_append, List.getElem?_take, List.length_take,
    List.getElem?_replicate]
  by_cases h1 : m < n
  · by_cases h2 : m < l.length
    · rw [if_pos (by omega), if_pos h1, if_pos h1, if_pos h2]
    · rw [if_neg (by omega), if_pos (by omega), if_pos h1, if_neg h2]
  · rw [if_neg (by omega), if_neg (by omega), if_neg h1]

/-- C17: for a well-formed vector and a target for which `resize` completes, the
resulting logical sequence is the first `min size new_size` old elements followed (when
`new_size > size`) by `new_size - size` elements whose bytes are all zero. -/
theorem resize_elems (heap : Heap) (fuel ns : Nat) (v w : Vector) (hb : v.Backed)
    (hsz : v.size ≤ v.capacity) (hfit : v.Fits) (hns : ns < SIZE_MOD)
    (h : resize heap fuel v ns = .done w) :
    w.elems = v.elems.take ns ++
      List.replicate (ns - v.size) (List.replicate v.element_size 0) := by
  obtain ⟨-, hs, he, hle, -, -, -⟩ := resize_done hb hsz hfit hns h
  obtain ⟨k, z⟩ := resize_slots hb hsz hfit hns h
  apply List.ext_getElem?
  intro m
  have hlen := elems_length v
  rw [← hlen, take_append_replicate_get, hlen, elems_get, elems_get, hs]
  by_cases h1 : m < ns
  · rw [if_pos h1, if_pos h1]
    by_cases h2 : m < v.size
    · rw [if_pos h2, if_pos h2, k m h2]
    · rw [if_neg h2, z m (by omega) (by omega), he]
  · rw [if_neg h1, if_neg h1]

/-- Witness of C17: `[1], [2], [3]` resized to 5. -/
theorem resize_elems_witness :
    (Vector.mk (some [1, 2, 3, 0, 0, 0, 0, 0]) 1 5 8).elems = sample123.elems.take 5 ++
      List.replicate (5 - sample123.size) (List.replicate sample123.element_size 0) :=
  resize_elems (grants fun _ _ => 5) 1 5 sample123
    (Vector.mk (some [1, 2, 3, 0, 0, 0, 0, 0]) 1 5 8) (by decide) (by decide) (by decide)
    (by decide) (by decide)

theorem memmove_nothing (block : List Nat) (dst src : Nat) :
    memmove block dst src 0 =
      if dst ≤ block.length ∧ src ≤ block.length then some block else none := by
  unfold memmove
  simp only [Nat.add_zero, List.take_zero, List.append_nil, List.take_append_drop]

theorem store_data {v : Vector} {block : List Nat} (hd : v.data = some block) :
    ({ v with data := some block } : Vector) = v := by
  cases v
  simp only at hd
  rw [hd]

/-- The call `insert` at `index = size` has the very outcome of `push_back` (the same
vector, or the same failure), for every vector, allocator, fuel and element: its
`memmove` moves no byte. -/
theorem insert_at_size_eq (heap : Heap) (fuel : Nat) (v : Vector) (x : List Nat) :
    insert heap fuel v v.size x = push_back heap fuel v x := by
  unfold insert push_back
  simp only
  cases hres : resize heap fuel v (szAdd v.size 1) with
  | undefined => rfl
  | outOfFuel => rfl
  | done w =>
    simp only
    obtain ⟨hws, -⟩ := resize_fields hres
    have e1 : szSub (szSub w.size v.size) 1 = 0 := by
      rw [hws]
      unfold szSub szAdd SIZE_MOD at *
      omega
    have e2 : VECTOR_OFFSET w 0 = 0 := by
      unfold VECTOR_OFFSET szMul
      rw [Nat.mul_zero]
      rfl
    rw [e1, e2]
    cases hd : w.data with
    | none =>
      unfold store
      simp only [hd]
    | some block =>
      by_cases hin : VECTOR_OFFSET w v.size + w.element_size ≤ block.length
      · have hmv : memmove block (VECTOR_OFFSET w v.size + w.element_size)
            (VECTOR_OFFSET w v.size) 0 = some block := by
          rw [memmove_nothing, if_pos ⟨hin, by omega⟩]
        rw [store_done hd hmv]
        simp only
        rw [store_data hd]
      · have hmv : memmove block (VECTOR_OFFSET w v.size + w.element_size)
            (VECTOR_OFFSET w v.size) 0 = none := by
          rw [memmove_nothing, if_neg (by omega)]
        have hcp : memcpy block (VECTOR_OFFSET w v.size) x w.element_size = none := by
          unfold memcpy
          rw [if_neg (by omega)]
        unfold store
        simp only [hd, hmv, hcp]

/-- C18: for a well-formed vector with `capacity ≥ 1` and `size ≤ capacity` and an element
of `element_size` bytes (allocator granting, fuel `≥ 1`), `insert` at `index = size` and
`push_back` both complete with one and the same vector: the same size, capacity and
buffer bytes. -/
theorem insert_at_end_is_push_back (junk : Nat → Nat → Nat) (fuel : Nat) (v : Vector)
    (x : List Nat) (hb : v.Backed) (hfit : v.Fits) (hc : 1 ≤ v.capacity)
    (hsz : v.size ≤ v.capacity) (hx : x.length = v.element_size) (hfuel : 1 ≤ fuel) :
    ∃ w, insert (grants junk) fuel v v.size x = .done w ∧
      push_back (grants junk) fuel v x = .done w := by
  obtain ⟨w0, hw0⟩ := grow_by_one_completes junk hb hsz hfit hc hfuel
  obtain ⟨w, hw, -⟩ := push_back_of_resize hb hsz hfit hx hw0
  exact ⟨w, by rw [insert_at_size_eq, hw], hw⟩

/-- Witness of C18 on `[1], [2], [3]`. -/
theorem insert_at_end_is_push_back_witness :
    ∃ w, insert (grants fun _ _ => 5) 1 sample123 sample123.size [4] = .done w ∧
      push_back (grants fun _ _ => 5) 1 sample123 [4] = .done w :=
  insert_at_end_is_push_back (fun _ _ => 5) 1 sample123 [4] (by decide) (by decide)
    (by decide) (by decide) (by decide) (by decide)

/-- C19: with an allocator that grants every request, a `size_t` target and a doubled
capacity that does not overflow, `resize` terminates (some fuel is enough) exactly when
`new_size ≤ 2 * capacity`; above that, and so for capacity 0 with a positive target, the
loop never exits. -/
theorem resize_terminates_iff (junk : Nat → Nat → Nat) (v : Vector) (ns : Nat)
    (hns : ns < SIZE_MOD) (hd : 2 * v.capacity < SIZE_MOD) :
    (∃ fuel, resize (grants junk) fuel v ns ≠ .outOfFuel) ↔ ns ≤ 2 * v.capacity := by
  constructor
  · rintro ⟨fuel, h⟩
    by_contra hc
    exact h (resize_diverges hns hd (by omega) fuel)
  · intro hle
    refine ⟨1, ?_⟩
    have hl : ∃ u, resize_loop (grants junk) ns
        (szAdd (szMul v.capacity 2) VECTOR_ALLOC_MARGIN) 1 v = .done u := by
      by_cases hc : ns ≤ v.capacity
      · exact ⟨v, resize_loop_exit (by rw [thres_eq hns]; omega) 1⟩
      · have hcap : (reserve (grants junk) v (2 * v.capacity)).capacity = 2 * v.capacity := by
          unfold reserve realloc grants
          rw [if_pos (by omega)]
        rw [doubled_eq hd, resize_loop_step (by rw [thres_eq hns]; omega),
          if_neg (by rw [thres_eq hns, hcap]; omega)]
        exact ⟨_, rfl⟩
    obtain ⟨u, hu⟩ := hl
    unfold resize
    simp only [hu]
    have hne := store_not_outOfFuel u (fun block => memset block (VECTOR_OFFSET u u.size) 0
      (VECTOR_OFFSET u (szSub u.capacity u.size)))
    split
    · intro h; cases h
    · rename_i r hr
      exact hne

/-- Witness of C19: capacity 4 and target 8, the largest that terminates. -/
theorem resize_terminates_iff_witness :
    (∃ fuel, resize (grants fun _ _ => 5) fuel sampleEmpty4 8 ≠ .outOfFuel) ↔
      8 ≤ 2 * sampleEmpty4.capacity :=
  resize_terminates_iff (fun _ _ => 5) sampleEmpty4 8 (by decide) (by decide)

/-- C20 (not met by the code): for `a = 2147483647` and `b = -1` the wrapped difference
is negative although `a > b`. -/
theorem int_cmp_overflow :
    int_value [255, 255, 255, 127] = 2147483647 ∧ int_value [255, 255, 255, 255] = -1 ∧
      int_cmp [255, 255, 255, 127] [255, 255, 255, 255] = -2147483648 ∧
      int_value [255, 255, 255, 127] > int_value [255, 255, 255, 255] := by
  decide

end Vec
